import Mathlib

/-!
Verification of `github.com/jaslong/wait`

A shallow embedding of `wait.go` and `until_all.go`.

Goroutines and channels are embedded as interleaving step functions: a state
records the program counter of every goroutine and the shared variables, an
action names the goroutine that takes its next atomic step, and a step that is
not enabled (a blocked channel operation) yields `none`.  Every shared read and
write is its own step.  `ForState.step` takes the steps of `For` and
`channelSignal.Wait` as sequentially consistent; `GoState.step` adds what Go
also allows for them: reads of the plain fields `done` and `err` that see a
value from before an unsynchronised store, and a routine that ends its
goroutine without returning, upon which the deferred `close` still runs.
-/

namespace Wait

/-! ## Common definitions -/

/-- Go `error` value: `none` is `nil`, `some a` is the non-nil error whose identity is `a`. -/
abbrev GoError := Option Nat

/-- Run a schedule: apply the step function to the actions in order; `none` as soon as an
action is not enabled. -/
def exec {σ α : Type} (step : σ → α → Option σ) : σ → List α → Option σ
  | s, [] => some s
  | s, a :: rest =>
    match step s a with
    | none => none
    | some t => exec step t rest

/-! ## `For` and `channelSignal` (wait.go) -/

/-- Fields of `channelSignal`.  The `channel` is never sent on, only closed, so its state
is whether `close` has run. -/
structure channelSignal where
  channelClosed : Bool
  done : Bool
  err : GoError
deriving DecidableEq

/-- Program counter of the goroutine started by `For`:
`defer close(signal.channel); signal.err = routine(); signal.done = true`. -/
inductive RoutinePC
  | running
  | routineReturned
  | errStored
  | doneSet
  | channelClosed
deriving DecidableEq

/-- Program counter of one call of `channelSignal.Wait`:
`if !s.done { <-s.channel }; return s.err`. -/
inductive WaitPC
  | entry
  | recv
  | loadErr
  | returned (e : GoError)
deriving DecidableEq

/-- A signal made by `For`, its goroutine, and the `Wait` calls made on it so far. -/
structure ForState where
  signal : channelSignal
  goroutine : RoutinePC
  waits : List WaitPC
deriving DecidableEq

/-- Atomic steps: four of the goroutine, a new `Wait` call, and three of `Wait` call `w`. -/
inductive ForAction
  | routineReturns
  | storeErr
  | setDone
  | closeChannel
  | callWait
  | testDone (w : Nat)
  | recvChannel (w : Nat)
  | returnErr (w : Nat)
deriving DecidableEq

/-- State right after `For(routine)` returns: fresh open channel, zero-valued `done` and
`err`, goroutine started, no `Wait` call yet. -/
def For : ForState :=
  { signal := { channelClosed := false, done := false, err := none }
    goroutine := RoutinePC.running
    waits := [] }

/-- One atomic step of the system around a signal whose routine returns `r`, on the
executions in which `routine()` returns and every read of `done` and `err` sees the latest
store.  `GoState.step` adds the executions that Go allows beyond these. -/
def ForState.step (r : GoError) (s : ForState) : ForAction → Option ForState
  | ForAction.routineReturns =>
    if s.goroutine = RoutinePC.running then
      some { s with goroutine := RoutinePC.routineReturned }
    else none
  | ForAction.storeErr =>
    if s.goroutine = RoutinePC.routineReturned then
      some { s with signal := { s.signal with err := r }, goroutine := RoutinePC.errStored }
    else none
  | ForAction.setDone =>
    if s.goroutine = RoutinePC.errStored then
      some { s with signal := { s.signal with done := true }, goroutine := RoutinePC.doneSet }
    else none
  | ForAction.closeChannel =>
    if s.goroutine = RoutinePC.doneSet then
      some { s with signal := { s.signal with channelClosed := true },
                    goroutine := RoutinePC.channelClosed }
    else none
  | ForAction.callWait => some { s with waits := s.waits ++ [WaitPC.entry] }
  | ForAction.testDone w =>
    match s.waits[w]? with
    | some WaitPC.entry =>
      some { s with waits := s.waits.set w (if s.signal.done then WaitPC.loadErr else WaitPC.recv) }
    | _ => none
  | ForAction.recvChannel w =>
    match s.waits[w]? with
    | some WaitPC.recv =>
      if s.signal.channelClosed then some { s with waits := s.waits.set w WaitPC.loadErr }
      else none
    | _ => none
  | ForAction.returnErr w =>
    match s.waits[w]? with
    | some WaitPC.loadErr => some { s with waits := s.waits.set w (WaitPC.returned s.signal.err) }
    | _ => none

/-- States reachable from `For(routine)` when `routine` returns `r`. -/
def ForState.Reachable (r : GoError) (s : ForState) : Prop :=
  ∃ acts, exec (ForState.step r) For acts = some s

/-- Schedule that lets the goroutine finish from wherever it is. -/
def ForState.finishRoutine : RoutinePC → List ForAction
  | RoutinePC.running =>
    [ForAction.routineReturns, ForAction.storeErr, ForAction.setDone, ForAction.closeChannel]
  | RoutinePC.routineReturned => [ForAction.storeErr, ForAction.setDone, ForAction.closeChannel]
  | RoutinePC.errStored => [ForAction.setDone, ForAction.closeChannel]
  | RoutinePC.doneSet => [ForAction.closeChannel]
  | RoutinePC.channelClosed => []

/-- Schedule that lets `Wait` call `w` return once the channel is closed. -/
def ForState.finishWait (w : Nat) : WaitPC → List ForAction
  | WaitPC.entry => [ForAction.testDone w, ForAction.returnErr w]
  | WaitPC.recv => [ForAction.recvChannel w, ForAction.returnErr w]
  | WaitPC.loadErr => [ForAction.returnErr w]
  | WaitPC.returned _ => []

/-- Values of the fields of the signal at each point of its goroutine. -/
def ForState.signalAt (r : GoError) : RoutinePC → channelSignal
  | RoutinePC.running => { channelClosed := false, done := false, err := none }
  | RoutinePC.routineReturned => { channelClosed := false, done := false, err := none }
  | RoutinePC.errStored => { channelClosed := false, done := false, err := r }
  | RoutinePC.doneSet => { channelClosed := false, done := true, err := r }
  | RoutinePC.channelClosed => { channelClosed := true, done := true, err := r }

/-- Invariant of the reachable states: the fields follow the goroutine, a `Wait` call past
its test has seen completion, and a returned `Wait` call holds the routine's value. -/
def ForState.Inv (r : GoError) (s : ForState) : Prop :=
  s.signal = ForState.signalAt r s.goroutine ∧
  ∀ w ∈ s.waits, (w = WaitPC.loadErr → s.signal.done = true) ∧
    (∀ e, w = WaitPC.returned e → e = r ∧ s.signal.done = true)

/-- Schedule that lets the `Wait` calls numbered `k`, `k + 1`, ... return, one after the
other, once the channel is closed. -/
def ForState.finishWaits : Nat → List WaitPC → List ForAction
  | _, [] => []
  | k, w :: rest => ForState.finishWait k w ++ ForState.finishWaits (k + 1) rest

/-- Sample schedule: one `Wait` call made before the routine returns and one made after
`done` is set. -/
def ForState.sampleSchedule : List ForAction :=
  [ForAction.callWait, ForAction.testDone 0, ForAction.routineReturns, ForAction.storeErr,
   ForAction.setDone, ForAction.callWait, ForAction.testDone 1, ForAction.returnErr 1,
   ForAction.closeChannel, ForAction.recvChannel 0]

/-- State at the end of `ForState.sampleSchedule` when the routine returns error 7: the
late call has returned, the early call is about to. -/
def ForState.sample : ForState :=
  { signal := { channelClosed := true, done := true, err := some 7 }
    goroutine := RoutinePC.channelClosed
    waits := [WaitPC.loadErr, WaitPC.returned (some 7)] }

/-! ### `For`: the executions Go allows beyond `ForState.step` -/

/-- A signal made by `For` with its goroutine and `Wait` calls (`sys`), and whether
`routine()` has ended the goroutine without returning (`goexit`). -/
structure GoState where
  sys : ForState
  goexit : Bool
deriving DecidableEq

/-- Steps of the program as Go runs it.

* `seq a`: a step of `ForState.step`.
* `routineExits`: `routine()` ends the goroutine without returning (`runtime.Goexit`, or a
  panic unwinding the goroutine); the assignments to `signal.err` and `signal.done` are
  skipped and the deferred `close(signal.channel)` runs.
* `testDoneStale w`: `Wait` call `w` evaluates `!s.done` and reads the initial `false`.
  `done` is a plain field, the read is not ordered with the store `signal.done = true`,
  and the Go memory model lets such a read see the value from before the store.
* `returnStaleErr w`: `Wait` call `w` has read `done == true`, so it made no receive on the
  channel, and now reads the initial `nil` from `s.err`.  `err` is a plain field and on
  this path nothing orders the read after the store `signal.err = routine()`. -/
inductive GoAction
  | seq (a : ForAction)
  | routineExits
  | testDoneStale (w : Nat)
  | returnStaleErr (w : Nat)
deriving DecidableEq

/-- State right after `For(routine)` returns. -/
def GoFor : GoState :=
  { sys := For, goexit := false }

/-- One atomic step of the system around a signal made by `For(routine)`, where `routine`
returns `r` if it returns.  A `Wait` call that is about to read `s.err` while the channel
is still open can only have got there by reading `done == true`, without a receive; that
is when `returnStaleErr` is enabled. -/
def GoState.step (r : GoError) (s : GoState) : GoAction → Option GoState
  | GoAction.seq a =>
    match s.sys.step r a with
    | none => none
    | some t => some { s with sys := t }
  | GoAction.routineExits =>
    if s.sys.goroutine = RoutinePC.running then
      some { sys := { s.sys with signal := { s.sys.signal with channelClosed := true },
                                 goroutine := RoutinePC.channelClosed }
             goexit := true }
    else none
  | GoAction.testDoneStale w =>
    match s.sys.waits[w]? with
    | some WaitPC.entry =>
      some { s with sys := { s.sys with waits := s.sys.waits.set w WaitPC.recv } }
    | _ => none
  | GoAction.returnStaleErr w =>
    match s.sys.waits[w]? with
    | some WaitPC.loadErr =>
      if s.sys.signal.channelClosed then none
      else some { s with sys := { s.sys with waits := s.sys.waits.set w (WaitPC.returned none) } }
    | _ => none

/-- States reachable from `For(routine)` as Go runs it. -/
def GoState.Reachable (r : GoError) (s : GoState) : Prop :=
  ∃ acts, exec (GoState.step r) GoFor acts = some s

/-- Number of steps of a schedule at which `done` changes from `false` to `true`. -/
def GoState.doneFlips (r : GoError) : GoState → List GoAction → Nat
  | _, [] => 0
  | s, a :: rest =>
    match s.step r a with
    | none => 0
    | some t => (if s.sys.signal.done = false ∧ t.sys.signal.done = true then 1 else 0)
                  + GoState.doneFlips r t rest

/-- Number of steps of a schedule at which `done` changes from `true` to `false`. -/
def GoState.doneReverts (r : GoError) : GoState → List GoAction → Nat
  | _, [] => 0
  | s, a :: rest =>
    match s.step r a with
    | none => 0
    | some t => (if s.sys.signal.done = true ∧ t.sys.signal.done = false then 1 else 0)
                  + GoState.doneReverts r t rest

/-- Invariant of the fields of the signal as the goroutine stores them: they follow the
goroutine while `routine()` has not left through `runtime.Goexit`, and after such an exit
the channel is closed with `done` and `err` still at their zero values. -/
def GoState.Inv (r : GoError) (s : GoState) : Prop :=
  (s.goexit = false → s.sys.signal = ForState.signalAt r s.sys.goroutine) ∧
  (s.goexit = true →
    s.sys.signal = { channelClosed := true, done := false, err := none } ∧
      s.sys.goroutine = RoutinePC.channelClosed)

/-- Schedule on which a `Wait` call made after `signal.done = true` reads `err` without
synchronisation. -/
def GoState.staleSchedule : List GoAction :=
  [GoAction.seq ForAction.routineReturns, GoAction.seq ForAction.storeErr,
   GoAction.seq ForAction.setDone, GoAction.seq ForAction.callWait,
   GoAction.seq (ForAction.testDone 0), GoAction.returnStaleErr 0]

/-- State at the end of `GoState.staleSchedule` when the routine returns error 7: the
`Wait` call has returned `nil`. -/
def GoState.stale : GoState :=
  { sys := { signal := { channelClosed := false, done := true, err := some 7 }
             goroutine := RoutinePC.doneSet
             waits := [WaitPC.returned none] }
    goexit := false }

/-- Schedule on which `routine()` calls `runtime.Goexit` while a `Wait` call is blocked. -/
def GoState.exitSchedule : List GoAction :=
  [GoAction.seq ForAction.callWait, GoAction.seq (ForAction.testDone 0),
   GoAction.routineExits, GoAction.seq (ForAction.recvChannel 0),
   GoAction.seq (ForAction.returnErr 0)]

/-- State at the end of `GoState.exitSchedule`: the channel is closed, `done` is false. -/
def GoState.exited : GoState :=
  { sys := { signal := { channelClosed := true, done := false, err := none }
             goroutine := RoutinePC.channelClosed
             waits := [WaitPC.returned none] }
    goexit := true }

/-- The sample state of `ForState.sample`, reached without any step beyond
`ForState.step`. -/
def GoState.sample : GoState :=
  { sys := ForState.sample, goexit := false }

/-! ## Input signals and their environment -/

/-- A `Signal` handed to a combinator, named by its identity.  Its operation completes at a
moment chosen by the environment; from then on a `Wait` on it returns its outcome. -/
abbrev SignalRef := Nat

/-- State of one `Wait` call on a combinator signal (`call`) together with the input
signals that have completed so far. -/
structure World (κ : Type) where
  completed : List SignalRef
  call : κ
deriving DecidableEq

/-- Either the environment completes an input signal, or the call takes a step of its own. -/
inductive WorldAction (α : Type)
  | complete (signal : SignalRef)
  | act (a : α)
deriving DecidableEq

/-- Lift the step function of a call (which reads the completed inputs and never changes
them) to the world. -/
def World.step {κ α : Type} (callStep : List SignalRef → κ → α → Option κ) (w : World κ) :
    WorldAction α → Option (World κ)
  | WorldAction.complete signal => some { w with completed := signal :: w.completed }
  | WorldAction.act a =>
    match callStep w.completed w.call a with
    | none => none
    | some c => some { w with call := c }

/-- Two calls running side by side over the same inputs, each with its own step function:
`Sum.inl a` steps the first call, `Sum.inr a` the second. -/
def pairStep {κ α : Type} (stepFirst stepSecond : List SignalRef → κ → α → Option κ)
    (completed : List SignalRef) (p : κ × κ) : α ⊕ α → Option (κ × κ)
  | Sum.inl a =>
    match stepFirst completed p.1 a with
    | none => none
    | some c => some (c, p.2)
  | Sum.inr a =>
    match stepSecond completed p.2 a with
    | none => none
    | some c => some (p.1, c)

/-- What the calling goroutine does with an input signal, in order. -/
inductive Event
  | waitCalled (signal : SignalRef)
  | waitReturned (signal : SignalRef) (e : GoError)
deriving DecidableEq

/-- Program counter of a goroutine `func(signal Signal) { errChan <- signal.Wait() }`. -/
inductive ObserverPC
  | inWait
  | sending (e : GoError)
  | exited
deriving DecidableEq

/-- A goroutine started by a combinator call, with the `signal` it was given. -/
structure Observer where
  signal : SignalRef
  pc : ObserverPC
deriving DecidableEq

/-! ## `UntilAllComplete` and `allDoneSignal` (until_all.go) -/

/-- The `signals` field; a `nil` slice and an empty slice are both the empty list. -/
structure allDoneSignal where
  signals : List SignalRef
deriving DecidableEq

/-- Constructor function of until_all.go. -/
def UntilAllComplete (signals : List SignalRef) : allDoneSignal :=
  { signals := signals }

/-- Program counter of `allDoneSignal.Wait`: at the head of the range loop with `rest`
still to visit, inside `signal.Wait()`, or returned. -/
inductive allDonePC
  | range (rest : List SignalRef)
  | inWait (signal : SignalRef) (rest : List SignalRef)
  | returned (e : GoError)
deriving DecidableEq

/-- One call of `allDoneSignal.Wait`: its program counter, the calls it has made on its
inputs, and the goroutines it has started. -/
structure allDoneCall where
  pc : allDonePC
  trace : List Event
  goroutines : List Observer
deriving DecidableEq

/-- Atomic steps of `allDoneSignal.Wait`. -/
inductive allDoneAction
  | callWait
  | waitReturns
  | returnNil
deriving DecidableEq

/-- Entry of `allDoneSignal.Wait`. -/
def allDoneSignal.Wait (f : allDoneSignal) : World allDoneCall :=
  { completed := []
    call := { pc := allDonePC.range f.signals, trace := [], goroutines := [] } }

/-- One step of `for _, signal := range f.signals { _ = signal.Wait() }; return nil`.
The value returned by `signal.Wait()` is discarded. -/
def allDoneCall.step (outcome : SignalRef → GoError) (completed : List SignalRef)
    (c : allDoneCall) : allDoneAction → Option allDoneCall
  | allDoneAction.callWait =>
    match c.pc with
    | allDonePC.range (signal :: rest) =>
      some { c with pc := allDonePC.inWait signal rest,
                    trace := c.trace ++ [Event.waitCalled signal] }
    | _ => none
  | allDoneAction.waitReturns =>
    match c.pc with
    | allDonePC.inWait signal rest =>
      if signal ∈ completed then
        some { c with pc := allDonePC.range rest,
                      trace := c.trace ++ [Event.waitReturned signal (outcome signal)] }
      else none
    | _ => none
  | allDoneAction.returnNil =>
    match c.pc with
    | allDonePC.range [] => some { c with pc := allDonePC.returned none }
    | _ => none

/-- Step function of a `Wait` call on `UntilAllComplete` in its environment. -/
def allDoneSignal.step (outcome : SignalRef → GoError) :
    World allDoneCall → WorldAction allDoneAction → Option (World allDoneCall) :=
  World.step (allDoneCall.step outcome)

/-- States a `Wait` call on `f` can reach. -/
def allDoneSignal.Reachable (f : allDoneSignal) (outcome : SignalRef → GoError)
    (w : World allDoneCall) : Prop :=
  ∃ acts, exec (allDoneSignal.step outcome) f.Wait acts = some w

/-- The calls one visit of the loop body makes on `signal`. -/
def allDoneSignal.visit (outcome : SignalRef → GoError) (signal : SignalRef) : List Event :=
  [Event.waitCalled signal, Event.waitReturned signal (outcome signal)]

/-- The input signals on which the trace records a `Wait` call, in call order. -/
def allDoneSignal.observed : List Event → List SignalRef
  | [] => []
  | Event.waitCalled signal :: rest => signal :: allDoneSignal.observed rest
  | Event.waitReturned _ _ :: rest => allDoneSignal.observed rest

/-- The steps of the call itself that visit every signal of `rest` and then return. -/
def allDoneSignal.runLoop : List SignalRef → List allDoneAction
  | [] => [allDoneAction.returnNil]
  | _ :: rest => allDoneAction.callWait :: allDoneAction.waitReturns :: allDoneSignal.runLoop rest

/-- The steps of the call itself that take it from `pc` to its return. -/
def allDoneSignal.resume : allDonePC → List allDoneAction
  | allDonePC.range rest => allDoneSignal.runLoop rest
  | allDonePC.inWait _ rest => allDoneAction.waitReturns :: allDoneSignal.runLoop rest
  | allDonePC.returned _ => []

/-- Invariant of the reachable states of a `Wait` call on `f`: the signals before the
loop position have each been visited once, in order, and have completed; no goroutine was
started; the call returns `nil` and only past the last signal. -/
def allDoneSignal.Inv (f : allDoneSignal) (outcome : SignalRef → GoError)
    (w : World allDoneCall) : Prop :=
  w.call.goroutines = [] ∧
  match w.call.pc with
  | allDonePC.range rest =>
    ∃ pre, pre ++ rest = f.signals ∧
      w.call.trace = pre.flatMap (allDoneSignal.visit outcome) ∧ ∀ x ∈ pre, x ∈ w.completed
  | allDonePC.inWait signal rest =>
    ∃ pre, pre ++ signal :: rest = f.signals ∧
      w.call.trace = pre.flatMap (allDoneSignal.visit outcome) ++ [Event.waitCalled signal] ∧
      ∀ x ∈ pre, x ∈ w.completed
  | allDonePC.returned e =>
    e = none ∧ w.call.trace = f.signals.flatMap (allDoneSignal.visit outcome) ∧
      ∀ x ∈ f.signals, x ∈ w.completed

/-- Sample inputs: signal 0 succeeds, signal 1 fails with error 5, signal 2 fails with
error 6, every other signal succeeds. -/
def sampleOutcome : SignalRef → GoError
  | 1 => some 5
  | 2 => some 6
  | _ => none

/-- Sample schedule of `UntilAllComplete(0, 1).Wait()`: signal 1 completes first. -/
def allDoneSignal.sampleSchedule : List (WorldAction allDoneAction) :=
  [WorldAction.complete 1, WorldAction.act allDoneAction.callWait, WorldAction.complete 0,
   WorldAction.act allDoneAction.waitReturns, WorldAction.act allDoneAction.callWait,
   WorldAction.act allDoneAction.waitReturns, WorldAction.act allDoneAction.returnNil]

/-- State at the end of `allDoneSignal.sampleSchedule`. -/
def allDoneSignal.sample : World allDoneCall :=
  { completed := [0, 1]
    call := { pc := allDonePC.returned none
              trace := [Event.waitCalled 0, Event.waitReturned 0 none,
                        Event.waitCalled 1, Event.waitReturned 1 (some 5)]
              goroutines := [] } }

/-! ## `UntilAllSucceed` and `allSucceedSignal` (until_all.go) -/

/-- The `signals` field; a `nil` slice and an empty slice are both the empty list. -/
structure allSucceedSignal where
  signals : List SignalRef
deriving DecidableEq

/-- Constructor function of until_all.go. -/
def UntilAllSucceed (signals : List SignalRef) : allSucceedSignal :=
  { signals := signals }

/-- Program counter of the goroutine that called `allSucceedSignal.Wait`: in the first loop
with `rest` still to visit, at the head of the second loop with counter `i`, or returned. -/
inductive allSucceedPC
  | spawning (rest : List SignalRef)
  | collecting (i : Nat)
  | returned (e : GoError)
deriving DecidableEq

/-- One call of `allSucceedSignal.Wait`: the goroutines it has started (all sharing this
call's unbuffered `errChan`), its program counter, and the values it has received from
`errChan`, oldest first. -/
structure allSucceedCall where
  observers : List Observer
  pc : allSucceedPC
  received : List GoError
deriving DecidableEq

/-- Atomic steps of one call: the `go` statement of the first loop, `i := 0`, the return of
`signal.Wait()` inside observer `j`, the rendezvous of `err := <-errChan` with the send of
observer `j` followed by the test of `err`, and `return nil` after the loop. -/
inductive allSucceedAction
  | go
  | initLoop
  | observerWaitReturns (j : Nat)
  | receive (j : Nat)
  | returnNil
deriving DecidableEq

/-- Entry of `allSucceedSignal.Wait`: `errChan := make(chan error)`. -/
def allSucceedSignal.Wait (f : allSucceedSignal) : World allSucceedCall :=
  { completed := []
    call := { observers := [], pc := allSucceedPC.spawning f.signals, received := [] } }

/-- One step of a call of `allSucceedSignal.Wait`.  A send on the unbuffered `errChan`
completes only together with a receive, and only this call's collector loop receives. -/
def allSucceedCall.step (f : allSucceedSignal) (outcome : SignalRef → GoError)
    (completed : List SignalRef) (c : allSucceedCall) : allSucceedAction → Option allSucceedCall
  | allSucceedAction.go =>
    match c.pc with
    | allSucceedPC.spawning (signal :: rest) =>
      some { c with observers := c.observers ++ [{ signal := signal, pc := ObserverPC.inWait }],
                    pc := allSucceedPC.spawning rest }
    | _ => none
  | allSucceedAction.initLoop =>
    match c.pc with
    | allSucceedPC.spawning [] => some { c with pc := allSucceedPC.collecting 0 }
    | _ => none
  | allSucceedAction.observerWaitReturns j =>
    match c.observers[j]? with
    | some { signal := signal, pc := ObserverPC.inWait } =>
      if signal ∈ completed then
        some { c with observers :=
          c.observers.set j { signal := signal, pc := ObserverPC.sending (outcome signal) } }
      else none
    | _ => none
  | allSucceedAction.receive j =>
    match c.pc, c.observers[j]? with
    | allSucceedPC.collecting i, some { signal := signal, pc := ObserverPC.sending err } =>
      if i < f.signals.length then
        some { observers := c.observers.set j { signal := signal, pc := ObserverPC.exited }
               pc := if err ≠ none then allSucceedPC.returned err
                     else allSucceedPC.collecting (i + 1)
               received := c.received ++ [err] }
      else none
    | _, _ => none
  | allSucceedAction.returnNil =>
    match c.pc with
    | allSucceedPC.collecting i =>
      if i < f.signals.length then none else some { c with pc := allSucceedPC.returned none }
    | _ => none

/-- Step function of a `Wait` call on `UntilAllSucceed` in its environment. -/
def allSucceedSignal.step (f : allSucceedSignal) (outcome : SignalRef → GoError) :
    World allSucceedCall → WorldAction allSucceedAction → Option (World allSucceedCall) :=
  World.step (allSucceedCall.step f outcome)

/-- States a `Wait` call on `f` can reach. -/
def allSucceedSignal.Reachable (f : allSucceedSignal) (outcome : SignalRef → GoError)
    (w : World allSucceedCall) : Prop :=
  ∃ acts, exec (allSucceedSignal.step f outcome) f.Wait acts = some w

/-- Entry of two `Wait` calls on the same `allSucceedSignal`. -/
def allSucceedSignal.Wait2 (f : allSucceedSignal) : World (allSucceedCall × allSucceedCall) :=
  { completed := [], call := (f.Wait.call, f.Wait.call) }

/-- Step function of two `Wait` calls on the same `allSucceedSignal`, interleaved.  Every
call starts its own observers and each of them calls `signal.Wait()` itself, so an input
need not return the same value to both calls: `outcome₁ x` is what `Wait` on input `x`
returns to the observer of the first call, `outcome₂ x` what it returns to the observer of
the second. -/
def allSucceedSignal.step2 (f : allSucceedSignal) (outcome₁ outcome₂ : SignalRef → GoError) :
    World (allSucceedCall × allSucceedCall) → WorldAction (allSucceedAction ⊕ allSucceedAction) →
      Option (World (allSucceedCall × allSucceedCall)) :=
  World.step (pairStep (allSucceedCall.step f outcome₁) (allSucceedCall.step f outcome₂))

/-- The second loop of `allSucceedSignal.Wait` run on the sequence of values that `errChan`
delivers: `for i := 0; i < n; i++ { err := <-errChan; if err != nil { return err } };
return nil`.  The result is the returned error and the number of receives made; `none`
when the loop blocks in a receive because nothing more is delivered. -/
def allSucceedSignal.collect (n : Nat) : Nat → List GoError → Option (GoError × Nat)
  | i, [] => if i < n then none else some (none, i)
  | i, err :: rest =>
    if i < n then
      if err ≠ none then some (err, i + 1) else allSucceedSignal.collect n (i + 1) rest
    else some (none, i)

/-- Whether the observer goroutine has finished its send and terminated. -/
def Observer.hasExited (o : Observer) : Bool :=
  match o.pc with
  | ObserverPC.exited => true
  | _ => false

/-- Invariant of one call of `allSucceedSignal.Wait`, given the inputs completed so far:
a sending observer holds the outcome of its signal; an observer past `signal.Wait()` has a
completed signal; the values received are outcomes of inputs, one per exited observer; and
the values received so far determine the program counter. -/
def allSucceedCall.Inv (f : allSucceedSignal) (outcome : SignalRef → GoError)
    (completed : List SignalRef) (c : allSucceedCall) : Prop :=
  (∀ o ∈ c.observers, ∀ e, o.pc = ObserverPC.sending e → e = outcome o.signal) ∧
  (∀ o ∈ c.observers, o.pc ≠ ObserverPC.inWait → o.signal ∈ completed) ∧
  (∀ o ∈ c.observers, o.pc = ObserverPC.exited → outcome o.signal ∈ c.received) ∧
  (∀ e ∈ c.received, ∃ x ∈ f.signals, x ∈ completed ∧ outcome x = e) ∧
  c.observers.countP Observer.hasExited = c.received.length ∧
  match c.pc with
  | allSucceedPC.spawning rest =>
    c.observers.map Observer.signal ++ rest = f.signals ∧ c.received = []
  | allSucceedPC.collecting i =>
    c.observers.map Observer.signal = f.signals ∧ c.received = List.replicate i none
  | allSucceedPC.returned none =>
    c.observers.map Observer.signal = f.signals ∧
      c.received = List.replicate f.signals.length none ∧
      ∀ x ∈ f.signals, x ∈ completed ∧ outcome x = none
  | allSucceedPC.returned (some a) =>
    c.observers.map Observer.signal = f.signals ∧
      ∃ k, k < f.signals.length ∧ c.received = List.replicate k none ++ [some a]

/-- The steps of the call itself that take it from `pc` to `return nil` once the loop
counter has reached the number of signals. -/
def allSucceedSignal.resume : allSucceedPC → List allSucceedAction
  | allSucceedPC.spawning _ => [allSucceedAction.initLoop, allSucceedAction.returnNil]
  | allSucceedPC.collecting _ => [allSucceedAction.returnNil]
  | allSucceedPC.returned _ => []

/-- Sample schedule of `UntilAllSucceed(0, 1).Wait()`: only signal 1 completes, and it
fails. -/
def allSucceedSignal.sampleSchedule : List (WorldAction allSucceedAction) :=
  [WorldAction.act allSucceedAction.go, WorldAction.act allSucceedAction.go,
   WorldAction.complete 1, WorldAction.act (allSucceedAction.observerWaitReturns 1),
   WorldAction.act allSucceedAction.initLoop, WorldAction.act (allSucceedAction.receive 1)]

/-- State at the end of `allSucceedSignal.sampleSchedule`: the call has returned error 5
after one receive while signal 0 is still pending. -/
def allSucceedSignal.sample : World allSucceedCall :=
  { completed := [1]
    call := { observers := [{ signal := 0, pc := ObserverPC.inWait },
                            { signal := 1, pc := ObserverPC.exited }]
              pc := allSucceedPC.returned (some 5)
              received := [some 5] } }

/-- States two `Wait` calls on the same `allSucceedSignal` can reach together. -/
def allSucceedSignal.Reachable2 (f : allSucceedSignal) (outcome₁ outcome₂ : SignalRef → GoError)
    (w : World (allSucceedCall × allSucceedCall)) : Prop :=
  ∃ acts, exec (allSucceedSignal.step2 f outcome₁ outcome₂) f.Wait2 acts = some w

/-- Sample schedule of two `Wait` calls on `UntilAllSucceed(1, 2)`, both inputs failed: the
first call receives from its observer of signal 1, the second from its observer of
signal 2. -/
def allSucceedSignal.sampleSchedule2 : List (WorldAction (allSucceedAction ⊕ allSucceedAction)) :=
  [WorldAction.complete 1, WorldAction.complete 2,
   WorldAction.act (Sum.inl allSucceedAction.go), WorldAction.act (Sum.inl allSucceedAction.go),
   WorldAction.act (Sum.inl allSucceedAction.initLoop),
   WorldAction.act (Sum.inl (allSucceedAction.observerWaitReturns 0)),
   WorldAction.act (Sum.inl (allSucceedAction.receive 0)),
   WorldAction.act (Sum.inr allSucceedAction.go), WorldAction.act (Sum.inr allSucceedAction.go),
   WorldAction.act (Sum.inr allSucceedAction.initLoop),
   WorldAction.act (Sum.inr (allSucceedAction.observerWaitReturns 1)),
   WorldAction.act (Sum.inr (allSucceedAction.receive 1))]

/-- State at the end of `allSucceedSignal.sampleSchedule2`. -/
def allSucceedSignal.sample2 : World (allSucceedCall × allSucceedCall) :=
  { completed := [2, 1]
    call :=
      ({ observers := [{ signal := 1, pc := ObserverPC.exited },
                       { signal := 2, pc := ObserverPC.inWait }]
         pc := allSucceedPC.returned (some 5)
         received := [some 5] },
       { observers := [{ signal := 1, pc := ObserverPC.inWait },
                       { signal := 2, pc := ObserverPC.exited }]
         pc := allSucceedPC.returned (some 6)
         received := [some 6] }) }

/-- What an input that is itself `UntilAllSucceed(1, 2)` over the sample inputs can return
to a later `Wait` call on it: error 6 where an earlier call got error 5. -/
def sampleOutcomeLater : SignalRef → GoError
  | 1 => some 6
  | _ => none

/-- Sample schedule of two `Wait` calls on a composite with the single input 1. -/
def allSucceedSignal.nestedSchedule : List (WorldAction (allSucceedAction ⊕ allSucceedAction)) :=
  [WorldAction.complete 1,
   WorldAction.act (Sum.inl allSucceedAction.go),
   WorldAction.act (Sum.inl allSucceedAction.initLoop),
   WorldAction.act (Sum.inl (allSucceedAction.observerWaitReturns 0)),
   WorldAction.act (Sum.inl (allSucceedAction.receive 0)),
   WorldAction.act (Sum.inr allSucceedAction.go),
   WorldAction.act (Sum.inr allSucceedAction.initLoop),
   WorldAction.act (Sum.inr (allSucceedAction.observerWaitReturns 0)),
   WorldAction.act (Sum.inr (allSucceedAction.receive 0))]

/-- State at the end of `allSucceedSignal.nestedSchedule` when input 1 returns error 5 to
the first call and error 6 to the second. -/
def allSucceedSignal.nested : World (allSucceedCall × allSucceedCall) :=
  { completed := [1]
    call :=
      ({ observers := [{ signal := 1, pc := ObserverPC.exited }]
         pc := allSucceedPC.returned (some 5)
         received := [some 5] },
       { observers := [{ signal := 1, pc := ObserverPC.exited }]
         pc := allSucceedPC.returned (some 6)
         received := [some 6] }) }

/-- Sample schedule of two `Wait` calls on `UntilAllSucceed(0, 1)` where only input 1
completes, failing with error 5. -/
def allSucceedSignal.agreeSchedule : List (WorldAction (allSucceedAction ⊕ allSucceedAction)) :=
  [WorldAction.act (Sum.inl allSucceedAction.go), WorldAction.act (Sum.inl allSucceedAction.go),
   WorldAction.act (Sum.inr allSucceedAction.go), WorldAction.act (Sum.inr allSucceedAction.go),
   WorldAction.complete 1,
   WorldAction.act (Sum.inl allSucceedAction.initLoop),
   WorldAction.act (Sum.inr allSucceedAction.initLoop),
   WorldAction.act (Sum.inr (allSucceedAction.observerWaitReturns 1)),
   WorldAction.act (Sum.inl (allSucceedAction.observerWaitReturns 1)),
   WorldAction.act (Sum.inl (allSucceedAction.receive 1)),
   WorldAction.act (Sum.inr (allSucceedAction.receive 1))]

/-- State at the end of `allSucceedSignal.agreeSchedule`: both calls have returned
error 5. -/
def allSucceedSignal.agree : World (allSucceedCall × allSucceedCall) :=
  { completed := [1]
    call :=
      ({ observers := [{ signal := 0, pc := ObserverPC.inWait },
                       { signal := 1, pc := ObserverPC.exited }]
         pc := allSucceedPC.returned (some 5)
         received := [some 5] },
       { observers := [{ signal := 0, pc := ObserverPC.inWait },
                       { signal := 1, pc := ObserverPC.exited }]
         pc := allSucceedPC.returned (some 5)
         received := [some 5] }) }

/-- Continuation of `allSucceedSignal.sampleSchedule` after the call has returned: signal 0
completes and its observer gets the outcome from `signal.Wait()`. -/
def allSucceedSignal.lateSchedule : List (WorldAction allSucceedAction) :=
  [WorldAction.complete 0, WorldAction.act (allSucceedAction.observerWaitReturns 0)]

/-- State at the end of `allSucceedSignal.lateSchedule`: the observer of signal 0 is in its
send on `errChan`. -/
def allSucceedSignal.leaked : World allSucceedCall :=
  { completed := [0, 1]
    call := { observers := [{ signal := 0, pc := ObserverPC.sending none },
                            { signal := 1, pc := ObserverPC.exited }]
              pc := allSucceedPC.returned (some 5)
              received := [some 5] } }

/-! ### Generic facts about schedules -/

theorem exec_append {σ α : Type} (step : σ → α → Option σ) (s : σ) (as bs : List α) :
    exec step s (as ++ bs) = (exec step s as).bind (fun t => exec step t bs) := by
  induction as generalizing s with
  | nil => simp [exec]
  | cons a rest ih =>
    simp only [List.cons_append, exec]
    cases h : step s a with
    | none => simp
    | some t => simpa using ih t

theorem exec_invariant {σ α : Type} (step : σ → α → Option σ) (P : σ → Prop)
    (hstep : ∀ s a t, P s → step s a = some t → P t) :
    ∀ acts s t, P s → exec step s acts = some t → P t := by
  intro acts
  induction acts with
  | nil =>
    intro s t hs h
    simp only [exec, Option.some.injEq] at h
    exact h ▸ hs
  | cons a rest ih =>
    intro s t hs h
    simp only [exec] at h
    cases hst : step s a with
    | none => simp [hst] at h
    | some u =>
      simp only [hst] at h
      exact ih u t (hstep s a u hs hst) h

/-! ### `For`: the invariant -/

theorem ForState.signalAt_done_err (r : GoError) (pc : RoutinePC)
    (h : (ForState.signalAt r pc).done = true) : (ForState.signalAt r pc).err = r := by
  cases pc <;> simp_all [ForState.signalAt]

theorem ForState.signalAt_closed_done (r : GoError) (pc : RoutinePC)
    (h : (ForState.signalAt r pc).channelClosed = true) :
    (ForState.signalAt r pc).done = true := by
  cases pc <;> simp_all [ForState.signalAt]

theorem ForState.for_inv_init (r : GoError) : ForState.Inv r For := by
  simp [ForState.Inv, For, ForState.signalAt]

theorem ForState.for_inv_step (r : GoError) (s : ForState) (a : ForAction) (t : ForState)
    (hs : ForState.Inv r s) (h : s.step r a = some t) : ForState.Inv r t := by
  obtain ⟨hsig, hw⟩ := hs
  cases a with
  | routineReturns =>
    simp only [ForState.step] at h
    split at h
    · rename_i hg
      simp only [Option.some.injEq] at h
      subst h
      refine ⟨?_, hw⟩
      simp [hsig, hg, ForState.signalAt]
    · simp at h
  | storeErr =>
    simp only [ForState.step] at h
    split at h
    · rename_i hg
      simp only [Option.some.injEq] at h
      subst h
      refine ⟨?_, ?_⟩
      · simp [hsig, hg, ForState.signalAt]
      · intro w hmem
        have := hw w hmem
        simp only [hsig, hg, ForState.signalAt] at this
        simp at this
        exact ⟨fun h => absurd h this.1, fun e h => absurd h (this.2 e)⟩
    · simp at h
  | setDone =>
    simp only [ForState.step] at h
    split at h
    · rename_i hg
      simp only [Option.some.injEq] at h
      subst h
      refine ⟨?_, ?_⟩
      · simp [hsig, hg, ForState.signalAt]
      · intro w hmem
        have := hw w hmem
        simp only [hsig, hg, ForState.signalAt] at this
        simp at this
        exact ⟨fun h => absurd h this.1, fun e h => absurd h (this.2 e)⟩
    · simp at h
  | closeChannel =>
    simp only [ForState.step] at h
    split at h
    · rename_i hg
      simp only [Option.some.injEq] at h
      subst h
      refine ⟨?_, ?_⟩
      · simp [hsig, hg, ForState.signalAt]
      · intro w hmem
        have := hw w hmem
        simpa using this
    · simp at h
  | callWait =>
    simp only [ForState.step, Option.some.injEq] at h
    subst h
    refine ⟨hsig, ?_⟩
    intro w hmem
    simp only [List.mem_append, List.mem_singleton] at hmem
    rcases hmem with hmem | rfl
    · exact hw w hmem
    · simp
  | testDone i =>
    simp only [ForState.step] at h
    split at h
    · simp only [Option.some.injEq] at h
      subst h
      refine ⟨hsig, ?_⟩
      intro w hmem
      rcases List.mem_or_eq_of_mem_set hmem with hmem | rfl
      · exact hw w hmem
      · by_cases hd : s.signal.done = true <;> simp [hd]
    · simp at h
  | recvChannel i =>
    simp only [ForState.step] at h
    split at h
    · split at h
      · rename_i hc
        simp only [Option.some.injEq] at h
        subst h
        refine ⟨hsig, ?_⟩
        intro w hmem
        rcases List.mem_or_eq_of_mem_set hmem with hmem | rfl
        · exact hw w hmem
        · have hd := ForState.signalAt_closed_done r s.goroutine (hsig ▸ hc)
          rw [← hsig] at hd
          simp [hd]
      · simp at h
    · simp at h
  | returnErr i =>
    simp only [ForState.step] at h
    split at h
    · rename_i hi
      simp only [Option.some.injEq] at h
      subst h
      refine ⟨hsig, ?_⟩
      intro w hmem
      rcases List.mem_or_eq_of_mem_set hmem with hmem | rfl
      · exact hw w hmem
      · have hd := (hw WaitPC.loadErr (List.mem_iff_getElem?.mpr ⟨i, hi⟩)).1 rfl
        have he := ForState.signalAt_done_err r s.goroutine (hsig ▸ hd)
        rw [← hsig] at he
        simp [hd, he]
    · simp at h

theorem ForState.for_inv_exec (r : GoError) (acts : List ForAction) (s t : ForState)
    (hs : ForState.Inv r s) (h : exec (ForState.step r) s acts = some t) : ForState.Inv r t :=
  exec_invariant (ForState.step r) (ForState.Inv r)
    (fun s a t hs h => ForState.for_inv_step r s a t hs h) acts s t hs h

theorem ForState.for_inv_reachable (r : GoError) (s : ForState) (h : ForState.Reachable r s) :
    ForState.Inv r s := by
  obtain ⟨acts, hacts⟩ := h
  exact ForState.for_inv_exec r acts For s (ForState.for_inv_init r) hacts

/-! ### `For`: what one step does to the signal -/

theorem ForState.step_cases (r : GoError) (s : ForState) (a : ForAction) (t : ForState)
    (h : s.step r a = some t) :
    (t.signal = s.signal ∧ t.goroutine = s.goroutine) ∨
    (s.goroutine = RoutinePC.running ∧ t.signal = s.signal ∧
      t.goroutine = RoutinePC.routineReturned) ∨
    (s.goroutine = RoutinePC.routineReturned ∧ t.signal = { s.signal with err := r } ∧
      t.goroutine = RoutinePC.errStored) ∨
    (s.goroutine = RoutinePC.errStored ∧ t.signal = { s.signal with done := true } ∧
      t.goroutine = RoutinePC.doneSet) ∨
    (s.goroutine = RoutinePC.doneSet ∧ t.signal = { s.signal with channelClosed := true } ∧
      t.goroutine = RoutinePC.channelClosed) := by
  cases a with
  | routineReturns =>
    simp only [ForState.step] at h
    split at h
    · rename_i hg
      simp only [Option.some.injEq] at h
      subst h
      exact Or.inr (Or.inl ⟨hg, rfl, rfl⟩)
    · simp at h
  | storeErr =>
    simp only [ForState.step] at h
    split at h
    · rename_i hg
      simp only [Option.some.injEq] at h
      subst h
      exact Or.inr (Or.inr (Or.inl ⟨hg, rfl, rfl⟩))
    · simp at h
  | setDone =>
    simp only [ForState.step] at h
    split at h
    · rename_i hg
      simp only [Option.some.injEq] at h
      subst h
      exact Or.inr (Or.inr (Or.inr (Or.inl ⟨hg, rfl, rfl⟩)))
    · simp at h
  | closeChannel =>
    simp only [ForState.step] at h
    split at h
    · rename_i hg
      simp only [Option.some.injEq] at h
      subst h
      exact Or.inr (Or.inr (Or.inr (Or.inr ⟨hg, rfl, rfl⟩)))
    · simp at h
  | callWait =>
    simp only [ForState.step, Option.some.injEq] at h
    subst h
    exact Or.inl ⟨rfl, rfl⟩
  | testDone i =>
    simp only [ForState.step] at h
    split at h
    · simp only [Option.some.injEq] at h
      subst h
      exact Or.inl ⟨rfl, rfl⟩
    · simp at h
  | recvChannel i =>
    simp only [ForState.step] at h
    split at h
    · split at h
      · simp only [Option.some.injEq] at h
        subst h
        exact Or.inl ⟨rfl, rfl⟩
      · simp at h
    · simp at h
  | returnErr i =>
    simp only [ForState.step] at h
    split at h
    · simp only [Option.some.injEq] at h
      subst h
      exact Or.inl ⟨rfl, rfl⟩
    · simp at h

/-! ### `For`: every `Wait` call can return -/

theorem getElem?_append_length {α : Type} (pre : List α) (x : α) (post : List α) :
    (pre ++ x :: post)[pre.length]? = some x := by
  induction pre with
  | nil => simp
  | cons a rest ih => simpa only [List.cons_append, List.length_cons, List.getElem?_cons_succ] using ih

theorem set_append_length {α : Type} (pre : List α) (x y : α) (post : List α) :
    (pre ++ x :: post).set pre.length y = pre ++ y :: post := by
  induction pre with
  | nil => rfl
  | cons a rest ih => simp

theorem ForState.finishRoutine_exec (r : GoError) (s : ForState)
    (hs : s.signal = ForState.signalAt r s.goroutine) :
    exec (ForState.step r) s (ForState.finishRoutine s.goroutine) =
      some { signal := { channelClosed := true, done := true, err := r }
             goroutine := RoutinePC.channelClosed
             waits := s.waits } := by
  obtain ⟨sig, g, ws⟩ := s
  simp only at hs
  subst hs
  cases g <;> simp [ForState.finishRoutine, exec, ForState.step, ForState.signalAt]

theorem ForState.finishWait_exec (r : GoError) (g : RoutinePC) (pre post : List WaitPC)
    (w : WaitPC) (hw : ∀ e, w = WaitPC.returned e → e = r) :
    exec (ForState.step r)
        { signal := { channelClosed := true, done := true, err := r }
          goroutine := g, waits := pre ++ w :: post }
        (ForState.finishWait pre.length w) =
      some { signal := { channelClosed := true, done := true, err := r }
             goroutine := g, waits := pre ++ WaitPC.returned r :: post } := by
  cases w with
  | entry =>
    simp only [ForState.finishWait, exec, ForState.step, getElem?_append_length,
      set_append_length, if_true]
  | recv =>
    simp only [ForState.finishWait, exec, ForState.step, getElem?_append_length,
      set_append_length, if_true]
  | loadErr =>
    simp only [ForState.finishWait, exec, ForState.step, getElem?_append_length,
      set_append_length, if_true]
  | returned e =>
    simp [ForState.finishWait, exec, hw e rfl]

theorem ForState.finishWaits_exec (r : GoError) (g : RoutinePC) (post : List WaitPC) :
    ∀ pre : List WaitPC, (∀ e, WaitPC.returned e ∈ post → e = r) →
      exec (ForState.step r)
          { signal := { channelClosed := true, done := true, err := r }
            goroutine := g, waits := pre ++ post }
          (ForState.finishWaits pre.length post) =
        some { signal := { channelClosed := true, done := true, err := r }
               goroutine := g
               waits := pre ++ List.replicate post.length (WaitPC.returned r) } := by
  induction post with
  | nil => intro pre _; simp [ForState.finishWaits, exec]
  | cons w rest ih =>
    intro pre hret
    have hw : ∀ e, w = WaitPC.returned e → e = r := fun e he =>
      hret e (he ▸ List.mem_cons_self _ _)
    have hrest : ∀ e, WaitPC.returned e ∈ rest → e = r := fun e he =>
      hret e (List.mem_cons_of_mem _ he)
    have ih2 := ih (pre ++ [WaitPC.returned r]) hrest
    simp only [List.length_append, List.length_singleton, List.append_assoc,
      List.singleton_append] at ih2
    simp only [ForState.finishWaits, exec_append, ForState.finishWait_exec r g pre rest w hw,
      Option.some_bind, ih2, List.length_cons, List.replicate_succ]

theorem ForState.callWaits_exec (r : GoError) (k : Nat) :
    ∀ s : ForState, exec (ForState.step r) s (List.replicate k ForAction.callWait) =
      some { s with waits := s.waits ++ List.replicate k WaitPC.entry } := by
  induction k with
  | zero => intro s; simp [exec]
  | succ k ih =>
    intro s
    simp only [List.replicate_succ, exec, ForState.step, ih]
    simp [List.replicate_succ]

theorem ForState.for_sample_reachable : ForState.Reachable (some 7) ForState.sample :=
  ⟨ForState.sampleSchedule, by decide⟩

/-! ### `For`: `Wait` calls on sequentially consistent executions -/

/-- On the executions of `ForState.step`, where every read sees the latest store, each
`Wait` call that has returned holds the value `r` the routine returned, and from every
reachable state any further number `k` of `Wait` calls can be made and all calls run on
until each has returned `r`. -/
theorem ForState.wait_returns_when_reads_are_ordered (r : GoError) (s : ForState)
    (hs : ForState.Reachable r s) :
    (∀ e, WaitPC.returned e ∈ s.waits → e = r) ∧
    ∀ k, ∃ acts t, exec (ForState.step r) s acts = some t ∧
      t.waits = List.replicate (s.waits.length + k) (WaitPC.returned r) := by
  have hinv := ForState.for_inv_reachable r s hs
  have hret : ∀ e, WaitPC.returned e ∈ s.waits → e = r := fun e he =>
    ((hinv.2 _ he).2 e rfl).1
  refine ⟨hret, ?_⟩
  intro k
  refine ⟨List.replicate k ForAction.callWait ++
    (ForState.finishRoutine s.goroutine ++
      ForState.finishWaits 0 (s.waits ++ List.replicate k WaitPC.entry)),
    { signal := { channelClosed := true, done := true, err := r }
      goroutine := RoutinePC.channelClosed
      waits := List.replicate (s.waits.length + k) (WaitPC.returned r) }, ?_, rfl⟩
  have hall : ∀ e, WaitPC.returned e ∈ s.waits ++ List.replicate k WaitPC.entry → e = r := by
    intro e he
    rcases List.mem_append.mp he with he | he
    · exact hret e he
    · simp [List.mem_replicate] at he
  have h1 := ForState.finishRoutine_exec r
    { s with waits := s.waits ++ List.replicate k WaitPC.entry } hinv.1
  have h2 := ForState.finishWaits_exec r RoutinePC.channelClosed
    (s.waits ++ List.replicate k WaitPC.entry) [] hall
  simp only [List.nil_append, List.length_nil] at h2
  simp only [exec_append, ForState.callWaits_exec, Option.some_bind, h1, h2,
    List.length_append, List.length_replicate]

/-- C6: in every reachable state of a signal made by `For`, while the routine has not yet
returned no `Wait` call has returned and none can take its return step; and whenever a
`Wait` call takes its return step, the routine has returned and `done` is true or the
channel is closed. -/
theorem For_Wait_no_early_return (r : GoError) (s : ForState) (hs : ForState.Reachable r s) :
    (s.goroutine = RoutinePC.running →
      (∀ e, WaitPC.returned e ∉ s.waits) ∧ ∀ w, s.step r (ForAction.returnErr w) = none) ∧
    (∀ w t, s.step r (ForAction.returnErr w) = some t →
      s.goroutine ≠ RoutinePC.running ∧
        (s.signal.done = true ∨ s.signal.channelClosed = true)) := by
  obtain ⟨hsig, hw⟩ := ForState.for_inv_reachable r s hs
  have key : ∀ w t, s.step r (ForAction.returnErr w) = some t → s.signal.done = true := by
    intro w t h
    simp only [ForState.step] at h
    split at h
    · rename_i hi
      exact (hw WaitPC.loadErr (List.mem_iff_getElem?.mpr ⟨w, hi⟩)).1 rfl
    · simp at h
  have hrun : s.goroutine = RoutinePC.running → s.signal.done = false := by
    intro hg
    simp [hsig, hg, ForState.signalAt]
  refine ⟨fun hg => ⟨?_, ?_⟩, fun w t h => ⟨?_, Or.inl (key w t h)⟩⟩
  · intro e he
    have := ((hw _ he).2 e rfl).2
    simp [hrun hg] at this
  · intro w
    cases h : s.step r (ForAction.returnErr w) with
    | none => rfl
    | some t =>
      have := key w t h
      simp [hrun hg] at this
  · intro hg
    have := key w t h
    simp [hrun hg] at this

/-- Witness of C6 at the sample state, where `Wait` call 0 is about to return. -/
theorem For_Wait_no_early_return_witness :
    ForState.Reachable (some 7) ForState.sample ∧
    ((ForState.sample.goroutine = RoutinePC.running →
      (∀ e, WaitPC.returned e ∉ ForState.sample.waits) ∧
        ∀ w, ForState.sample.step (some 7) (ForAction.returnErr w) = none) ∧
    (∀ w t, ForState.sample.step (some 7) (ForAction.returnErr w) = some t →
      ForState.sample.goroutine ≠ RoutinePC.running ∧
        (ForState.sample.signal.done = true ∨ ForState.sample.signal.channelClosed = true))) :=
  ⟨⟨ForState.sampleSchedule, by decide⟩,
    For_Wait_no_early_return (some 7) ForState.sample ⟨ForState.sampleSchedule, by decide⟩⟩

/-! ### `For`: the fields of the signal on every execution Go allows -/

theorem GoState.go_step_cases (r : GoError) (s : GoState) (a : GoAction) (t : GoState)
    (h : s.step r a = some t) :
    (t.sys.signal = s.sys.signal ∧ t.sys.goroutine = s.sys.goroutine ∧ t.goexit = s.goexit) ∨
    (s.sys.goroutine = RoutinePC.running ∧ t.sys.signal = s.sys.signal ∧
      t.sys.goroutine = RoutinePC.routineReturned ∧ t.goexit = s.goexit) ∨
    (s.sys.goroutine = RoutinePC.routineReturned ∧
      t.sys.signal = { s.sys.signal with err := r } ∧
      t.sys.goroutine = RoutinePC.errStored ∧ t.goexit = s.goexit) ∨
    (s.sys.goroutine = RoutinePC.errStored ∧
      t.sys.signal = { s.sys.signal with done := true } ∧
      t.sys.goroutine = RoutinePC.doneSet ∧ t.goexit = s.goexit) ∨
    (s.sys.goroutine = RoutinePC.doneSet ∧
      t.sys.signal = { s.sys.signal with channelClosed := true } ∧
      t.sys.goroutine = RoutinePC.channelClosed ∧ t.goexit = s.goexit) ∨
    (s.sys.goroutine = RoutinePC.running ∧
      t.sys.signal = { s.sys.signal with channelClosed := true } ∧
      t.sys.goroutine = RoutinePC.channelClosed ∧ t.goexit = true) := by
  cases a with
  | seq b =>
    simp only [GoState.step] at h
    cases hb : s.sys.step r b with
    | none => simp [hb] at h
    | some u =>
      simp only [hb, Option.some.injEq] at h
      subst h
      rcases ForState.step_cases r s.sys b u hb with ⟨h1, h2⟩ | ⟨h0, h1, h2⟩ | ⟨h0, h1, h2⟩ |
        ⟨h0, h1, h2⟩ | ⟨h0, h1, h2⟩
      · exact Or.inl ⟨h1, h2, rfl⟩
      · exact Or.inr (Or.inl ⟨h0, h1, h2, rfl⟩)
      · exact Or.inr (Or.inr (Or.inl ⟨h0, h1, h2, rfl⟩))
      · exact Or.inr (Or.inr (Or.inr (Or.inl ⟨h0, h1, h2, rfl⟩)))
      · exact Or.inr (Or.inr (Or.inr (Or.inr (Or.inl ⟨h0, h1, h2, rfl⟩))))
  | routineExits =>
    simp only [GoState.step] at h
    split at h
    · rename_i hg
      simp only [Option.some.injEq] at h
      subst h
      exact Or.inr (Or.inr (Or.inr (Or.inr (Or.inr ⟨hg, rfl, rfl, rfl⟩))))
    · simp at h
  | testDoneStale w =>
    simp only [GoState.step] at h
    split at h
    · simp only [Option.some.injEq] at h
      subst h
      exact Or.inl ⟨rfl, rfl, rfl⟩
    · simp at h
  | returnStaleErr w =>
    simp only [GoState.step] at h
    split at h
    · split at h
      · simp at h
      · simp only [Option.some.injEq] at h
        subst h
        exact Or.inl ⟨rfl, rfl, rfl⟩
    · simp at h

theorem GoState.go_inv_init (r : GoError) : GoState.Inv r GoFor := by
  simp [GoState.Inv, GoFor, For, ForState.signalAt]

theorem GoState.go_inv_step (r : GoError) (s : GoState) (a : GoAction) (t : GoState)
    (hs : GoState.Inv r s) (h : s.step r a = some t) : GoState.Inv r t := by
  obtain ⟨hn, he⟩ := hs
  cases hx : s.goexit with
  | true =>
    obtain ⟨hsig, hpc⟩ := he hx
    rcases GoState.go_step_cases r s a t h with ⟨h1, h2, h3⟩ | ⟨h0, _⟩ | ⟨h0, _⟩ | ⟨h0, _⟩ |
      ⟨h0, _⟩ | ⟨h0, _⟩
    · refine ⟨fun hf => ?_, fun _ => ⟨h1 ▸ hsig, h2 ▸ hpc⟩⟩
      rw [h3, hx] at hf
      simp at hf
    · rw [hpc] at h0; simp at h0
    · rw [hpc] at h0; simp at h0
    · rw [hpc] at h0; simp at h0
    · rw [hpc] at h0; simp at h0
    · rw [hpc] at h0; simp at h0
  | false =>
    have hsig := hn hx
    rcases GoState.go_step_cases r s a t h with ⟨h1, h2, h3⟩ | ⟨h0, h1, h2, h3⟩ |
      ⟨h0, h1, h2, h3⟩ | ⟨h0, h1, h2, h3⟩ | ⟨h0, h1, h2, h3⟩ | ⟨h0, h1, h2, h3⟩
    · refine ⟨fun _ => by rw [h1, h2]; exact hsig, fun ht => ?_⟩
      rw [h3, hx] at ht
      simp at ht
    · refine ⟨fun _ => ?_, fun ht => ?_⟩
      · rw [h1, h2, hsig, h0]; rfl
      · rw [h3, hx] at ht; simp at ht
    · refine ⟨fun _ => ?_, fun ht => ?_⟩
      · rw [h1, h2, hsig, h0]; rfl
      · rw [h3, hx] at ht; simp at ht
    · refine ⟨fun _ => ?_, fun ht => ?_⟩
      · rw [h1, h2, hsig, h0]; rfl
      · rw [h3, hx] at ht; simp at ht
    · refine ⟨fun _ => ?_, fun ht => ?_⟩
      · rw [h1, h2, hsig, h0]; rfl
      · rw [h3, hx] at ht; simp at ht
    · refine ⟨fun hf => ?_, fun _ => ⟨?_, h2⟩⟩
      · rw [h3] at hf; simp at hf
      · rw [h1, hsig, h0]; rfl

theorem GoState.go_inv_reachable (r : GoError) (s : GoState) (h : GoState.Reachable r s) :
    GoState.Inv r s := by
  obtain ⟨acts, hacts⟩ := h
  exact exec_invariant (GoState.step r) (GoState.Inv r)
    (fun s a t hs h => GoState.go_inv_step r s a t hs h) acts GoFor s
    (GoState.go_inv_init r) hacts

theorem GoState.go_done_mono (r : GoError) (s : GoState) (a : GoAction) (t : GoState)
    (h : s.step r a = some t) (hd : s.sys.signal.done = true) : t.sys.signal.done = true := by
  rcases GoState.go_step_cases r s a t h with ⟨h1, _⟩ | ⟨_, h1, _⟩ | ⟨_, h1, _⟩ | ⟨_, h1, _⟩ |
    ⟨_, h1, _⟩ | ⟨_, h1, _⟩ <;> simp [h1, hd]

theorem GoState.go_flip (r : GoError) (s : GoState) (a : GoAction) (t : GoState)
    (h : s.step r a = some t) (hd : s.sys.signal.done = false)
    (ht : t.sys.signal.done = true) : t.sys.goroutine = RoutinePC.doneSet := by
  rcases GoState.go_step_cases r s a t h with ⟨h1, _⟩ | ⟨_, h1, _⟩ | ⟨_, h1, _⟩ |
    ⟨_, _, h2, _⟩ | ⟨_, h1, _⟩ | ⟨_, h1, _⟩
  · simp [h1, hd] at ht
  · simp [h1, hd] at ht
  · simp [h1, hd] at ht
  · exact h2
  · simp [h1, hd] at ht
  · simp [h1, hd] at ht

theorem GoState.go_late (r : GoError) (s : GoState) (a : GoAction) (t : GoState)
    (h : s.step r a = some t)
    (hg : s.sys.goroutine = RoutinePC.doneSet ∨ s.sys.goroutine = RoutinePC.channelClosed) :
    (t.sys.goroutine = RoutinePC.doneSet ∨ t.sys.goroutine = RoutinePC.channelClosed) ∧
      t.sys.signal.done = s.sys.signal.done := by
  rcases GoState.go_step_cases r s a t h with ⟨h1, h2, _⟩ | ⟨h0, _⟩ | ⟨h0, _⟩ | ⟨h0, _⟩ |
    ⟨_, h1, h2, _⟩ | ⟨h0, _⟩
  · exact ⟨h2 ▸ hg, by rw [h1]⟩
  · rcases hg with hg | hg <;> simp [h0] at hg
  · rcases hg with hg | hg <;> simp [h0] at hg
  · rcases hg with hg | hg <;> simp [h0] at hg
  · exact ⟨Or.inr h2, by rw [h1]⟩
  · rcases hg with hg | hg <;> simp [h0] at hg

theorem GoState.doneFlips_late (r : GoError) (acts : List GoAction) :
    ∀ s : GoState,
      (s.sys.goroutine = RoutinePC.doneSet ∨ s.sys.goroutine = RoutinePC.channelClosed) →
      GoState.doneFlips r s acts = 0 := by
  induction acts with
  | nil => intro s _; rfl
  | cons a rest ih =>
    intro s hg
    simp only [GoState.doneFlips]
    cases h : s.step r a with
    | none => rfl
    | some t =>
      obtain ⟨hg2, hd⟩ := GoState.go_late r s a t h hg
      simp only [ih t hg2, hd, add_zero]
      cases t.sys.signal.done <;> simp

theorem GoState.doneFlips_le_one (r : GoError) (acts : List GoAction) :
    ∀ s : GoState, GoState.doneFlips r s acts ≤ 1 := by
  induction acts with
  | nil => intro s; simp [GoState.doneFlips]
  | cons a rest ih =>
    intro s
    simp only [GoState.doneFlips]
    cases h : s.step r a with
    | none => simp
    | some t =>
      simp only
      by_cases hf : s.sys.signal.done = false ∧ t.sys.signal.done = true
      · have hg := GoState.go_flip r s a t h hf.1 hf.2
        rw [GoState.doneFlips_late r rest t (Or.inl hg)]
        simp [hf]
      · rw [if_neg hf]
        simpa using ih t

theorem GoState.doneReverts_eq_zero (r : GoError) (acts : List GoAction) :
    ∀ s : GoState, GoState.doneReverts r s acts = 0 := by
  induction acts with
  | nil => intro s; rfl
  | cons a rest ih =>
    intro s
    simp only [GoState.doneReverts]
    cases h : s.step r a with
    | none => rfl
    | some t =>
      simp only [ih t, add_zero]
      have hm := GoState.go_done_mono r s a t h
      by_cases hd : s.sys.signal.done = true
      · simp [hd, hm hd]
      · simp [hd]

/-- C1 at the failing input `For(routine)` with `routine` returning error 7 and `Wait`
called after the goroutine has executed `signal.done = true`: the call reads
`done == true`, skips the receive on the channel, and its read of `s.err`, which nothing
orders after the store of error 7, yields `nil`; `Wait` returns `nil`, not error 7. -/
theorem For_Wait_returns_stale_nil :
    exec (GoState.step (some 7)) GoFor GoState.staleSchedule = some GoState.stale ∧
    GoState.stale.sys.signal.done = true ∧
    GoState.stale.sys.signal.err = some 7 ∧
    GoState.stale.sys.waits = [WaitPC.returned none] ∧
    (none : GoError) ≠ some 7 := by
  refine ⟨by decide, rfl, rfl, rfl, by decide⟩

/-- C8, as the claim states it, fails: when `routine()` ends the goroutine through
`runtime.Goexit`, the deferred `close(signal.channel)` runs although `signal.done = true`
was never executed; the channel is closed and `done` is false (and a blocked `Wait` call
returns `nil`). -/
theorem For_closed_without_done :
    exec (GoState.step (some 7)) GoFor GoState.exitSchedule = some GoState.exited ∧
    GoState.exited.sys.signal.channelClosed = true ∧
    GoState.exited.sys.signal.done = false := by
  refine ⟨by decide, rfl, rfl⟩

/-- C8, amended: for a signal made by `For`, on every execution Go allows (also with
`Wait` calls reading stale values and with `routine()` leaving through `runtime.Goexit`):
along every schedule from every reachable state the stored `done` changes from false to
true at most once and never from true to false; in every reachable state `done = true`
implies that the stored `err` is the value `r` the routine returned; a closed channel
implies `done = true` unless the routine left without returning, in which case the
channel is closed with `done` false and `err` nil; and a step taken while `done` is true
leaves `done` true and `err` unchanged. -/
theorem For_done_invariant_unless_goexit (r : GoError) (s : GoState)
    (hs : GoState.Reachable r s) :
    (∀ acts, GoState.doneFlips r s acts ≤ 1 ∧ GoState.doneReverts r s acts = 0) ∧
    (s.sys.signal.done = true → s.sys.signal.err = r) ∧
    (s.sys.signal.channelClosed = true → s.sys.signal.done = true ∨ s.goexit = true) ∧
    (s.goexit = true → s.sys.signal.channelClosed = true ∧ s.sys.signal.done = false ∧
      s.sys.signal.err = none) ∧
    (∀ a t, s.step r a = some t → s.sys.signal.done = true →
      t.sys.signal.done = true ∧ t.sys.signal.err = s.sys.signal.err) := by
  obtain ⟨hn, he⟩ := GoState.go_inv_reachable r s hs
  have hdone : s.sys.signal.done = true →
      s.goexit = false ∧ s.sys.signal = ForState.signalAt r s.sys.goroutine := by
    intro hd
    cases hx : s.goexit with
    | true =>
      rw [(he hx).1] at hd
      simp at hd
    | false => exact ⟨rfl, hn hx⟩
  refine ⟨fun acts => ⟨GoState.doneFlips_le_one r acts s, GoState.doneReverts_eq_zero r acts s⟩,
    ?_, ?_, ?_, ?_⟩
  · intro hd
    obtain ⟨_, hsig⟩ := hdone hd
    rw [hsig] at hd ⊢
    exact ForState.signalAt_done_err r _ hd
  · intro hc
    cases hx : s.goexit with
    | true => exact Or.inr rfl
    | false =>
      have hsig := hn hx
      rw [hsig] at hc ⊢
      exact Or.inl (ForState.signalAt_closed_done r _ hc)
  · intro hx
    rw [(he hx).1]
    exact ⟨rfl, rfl, rfl⟩
  · intro a t h hd
    obtain ⟨_, hsig⟩ := hdone hd
    refine ⟨GoState.go_done_mono r s a t h hd, ?_⟩
    rcases GoState.go_step_cases r s a t h with ⟨h1, _⟩ | ⟨_, h1, _⟩ | ⟨h0, _⟩ | ⟨_, h1, _⟩ |
      ⟨_, h1, _⟩ | ⟨_, h1, _⟩
    · rw [h1]
    · rw [h1]
    · rw [hsig, h0] at hd
      simp [ForState.signalAt] at hd
    · rw [h1]
    · rw [h1]
    · rw [h1]

/-- Witness of the amended C8 at the sample state, where the routine has returned error 7,
`done` is true and the channel is closed. -/
theorem For_done_invariant_unless_goexit_witness :
    GoState.Reachable (some 7) GoState.sample ∧
    ((∀ acts, GoState.doneFlips (some 7) GoState.sample acts ≤ 1 ∧
        GoState.doneReverts (some 7) GoState.sample acts = 0) ∧
    (GoState.sample.sys.signal.done = true → GoState.sample.sys.signal.err = some 7) ∧
    (GoState.sample.sys.signal.channelClosed = true →
      GoState.sample.sys.signal.done = true ∨ GoState.sample.goexit = true) ∧
    (GoState.sample.goexit = true → GoState.sample.sys.signal.channelClosed = true ∧
      GoState.sample.sys.signal.done = false ∧ GoState.sample.sys.signal.err = none) ∧
    (∀ a t, GoState.sample.step (some 7) a = some t →
      GoState.sample.sys.signal.done = true →
      t.sys.signal.done = true ∧ t.sys.signal.err = GoState.sample.sys.signal.err)) :=
  ⟨⟨ForState.sampleSchedule.map GoAction.seq, by decide⟩,
    For_done_invariant_unless_goexit (some 7) GoState.sample
      ⟨ForState.sampleSchedule.map GoAction.seq, by decide⟩⟩

/-! ### `UntilAllComplete`: the invariant -/

theorem allDoneSignal.allDone_inv_init (f : allDoneSignal) (outcome : SignalRef → GoError) :
    allDoneSignal.Inv f outcome f.Wait := by
  refine ⟨rfl, ?_⟩
  exact ⟨[], rfl, rfl, by simp⟩

theorem allDoneSignal.allDone_inv_step (f : allDoneSignal) (outcome : SignalRef → GoError)
    (w : World allDoneCall) (a : WorldAction allDoneAction) (t : World allDoneCall)
    (hw : allDoneSignal.Inv f outcome w) (h : allDoneSignal.step outcome w a = some t) :
    allDoneSignal.Inv f outcome t := by
  obtain ⟨completed, pc, trace, gs⟩ := w
  obtain ⟨hg, hpc⟩ := hw
  simp only at hg hpc
  subst hg
  cases a with
  | complete signal =>
    simp only [allDoneSignal.step, World.step, Option.some.injEq] at h
    subst h
    refine ⟨rfl, ?_⟩
    cases pc with
    | range rest =>
      obtain ⟨pre, h1, h2, h3⟩ := hpc
      exact ⟨pre, h1, h2, fun x hx => List.mem_cons_of_mem _ (h3 x hx)⟩
    | inWait sg rest =>
      obtain ⟨pre, h1, h2, h3⟩ := hpc
      exact ⟨pre, h1, h2, fun x hx => List.mem_cons_of_mem _ (h3 x hx)⟩
    | returned e =>
      obtain ⟨h1, h2, h3⟩ := hpc
      exact ⟨h1, h2, fun x hx => List.mem_cons_of_mem _ (h3 x hx)⟩
  | act b =>
    cases b with
    | callWait =>
      cases pc with
      | range rest =>
        cases rest with
        | nil => simp [allDoneSignal.step, World.step, allDoneCall.step] at h
        | cons sg rest =>
          simp only [allDoneSignal.step, World.step, allDoneCall.step, Option.some.injEq] at h
          subst h
          obtain ⟨pre, h1, h2, h3⟩ := hpc
          exact ⟨rfl, pre, h1, by simp [h2], h3⟩
      | inWait sg rest => simp [allDoneSignal.step, World.step, allDoneCall.step] at h
      | returned e => simp [allDoneSignal.step, World.step, allDoneCall.step] at h
    | waitReturns =>
      cases pc with
      | range rest => simp [allDoneSignal.step, World.step, allDoneCall.step] at h
      | inWait sg rest =>
        by_cases hc : sg ∈ completed
        · simp only [allDoneSignal.step, World.step, allDoneCall.step, hc, if_true,
            Option.some.injEq] at h
          subst h
          obtain ⟨pre, h1, h2, h3⟩ := hpc
          refine ⟨rfl, pre ++ [sg], by simpa using h1, ?_, ?_⟩
          · simp [h2, allDoneSignal.visit]
          · intro x hx
            rcases List.mem_append.mp hx with hx | hx
            · exact h3 x hx
            · simp only [List.mem_singleton] at hx
              exact hx ▸ hc
        · simp [allDoneSignal.step, World.step, allDoneCall.step, hc] at h
      | returned e => simp [allDoneSignal.step, World.step, allDoneCall.step] at h
    | returnNil =>
      cases pc with
      | range rest =>
        cases rest with
        | nil =>
          simp only [allDoneSignal.step, World.step, allDoneCall.step, Option.some.injEq] at h
          subst h
          obtain ⟨pre, h1, h2, h3⟩ := hpc
          simp only [List.append_nil] at h1
          subst h1
          exact ⟨rfl, rfl, h2, h3⟩
        | cons sg rest => simp [allDoneSignal.step, World.step, allDoneCall.step] at h
      | inWait sg rest => simp [allDoneSignal.step, World.step, allDoneCall.step] at h
      | returned e => simp [allDoneSignal.step, World.step, allDoneCall.step] at h

theorem allDoneSignal.allDone_inv_reachable (f : allDoneSignal) (outcome : SignalRef → GoError)
    (w : World allDoneCall) (h : allDoneSignal.Reachable f outcome w) :
    allDoneSignal.Inv f outcome w := by
  obtain ⟨acts, hacts⟩ := h
  exact exec_invariant (allDoneSignal.step outcome) (allDoneSignal.Inv f outcome)
    (fun s a t hs h => allDoneSignal.allDone_inv_step f outcome s a t hs h) acts f.Wait w
    (allDoneSignal.allDone_inv_init f outcome) hacts

/-! ### `UntilAllComplete`: the call runs to its return -/

theorem allDoneSignal.observed_visits (outcome : SignalRef → GoError) (l : List SignalRef) :
    allDoneSignal.observed (l.flatMap (allDoneSignal.visit outcome)) = l := by
  induction l with
  | nil => rfl
  | cons x rest ih =>
    rw [List.flatMap_cons]
    show x :: allDoneSignal.observed (rest.flatMap (allDoneSignal.visit outcome)) = x :: rest
    rw [ih]

theorem World.completeAll_exec {κ α : Type} (callStep : List SignalRef → κ → α → Option κ)
    (l : List SignalRef) :
    ∀ w : World κ, exec (World.step callStep) w (l.map WorldAction.complete) =
      some { w with completed := l.reverse ++ w.completed } := by
  induction l with
  | nil => intro w; simp [exec]
  | cons x rest ih =>
    intro w
    simp only [List.map_cons, exec, World.step, ih]
    simp

theorem allDoneSignal.runLoop_exec (outcome : SignalRef → GoError) (completed : List SignalRef)
    (gs : List Observer) (rest : List SignalRef) :
    ∀ trace : List Event, (∀ x ∈ rest, x ∈ completed) →
      exec (allDoneSignal.step outcome)
          { completed := completed
            call := { pc := allDonePC.range rest, trace := trace, goroutines := gs } }
          ((allDoneSignal.runLoop rest).map WorldAction.act) =
        some { completed := completed
               call := { pc := allDonePC.returned none
                         trace := trace ++ rest.flatMap (allDoneSignal.visit outcome)
                         goroutines := gs } } := by
  induction rest with
  | nil =>
    intro trace _
    simp [allDoneSignal.runLoop, exec, allDoneSignal.step, World.step, allDoneCall.step]
  | cons x rest ih =>
    intro trace hall
    have hx : x ∈ completed := hall x (List.mem_cons_self _ _)
    have hrest : ∀ y ∈ rest, y ∈ completed := fun y hy => hall y (List.mem_cons_of_mem _ hy)
    simp only [allDoneSignal.runLoop, List.map_cons, exec, allDoneSignal.step, World.step,
      allDoneCall.step, hx, if_true]
    have := ih (trace ++ [Event.waitCalled x] ++ [Event.waitReturned x (outcome x)]) hrest
    simp only [allDoneSignal.step] at this
    rw [this]
    simp [allDoneSignal.visit]

theorem allDoneSignal.resume_exec (f : allDoneSignal) (outcome : SignalRef → GoError)
    (w : World allDoneCall) (hinv : allDoneSignal.Inv f outcome w)
    (hall : ∀ x ∈ f.signals, x ∈ w.completed) :
    ∃ t, exec (allDoneSignal.step outcome) w
        ((allDoneSignal.resume w.call.pc).map WorldAction.act) = some t ∧
      t.call.pc = allDonePC.returned none ∧ t.completed = w.completed := by
  obtain ⟨completed, pc, trace, gs⟩ := w
  obtain ⟨_, hpc⟩ := hinv
  simp only at hpc hall
  cases pc with
  | range rest =>
    obtain ⟨pre, h1, _, _⟩ := hpc
    have hrest : ∀ x ∈ rest, x ∈ completed := fun x hx =>
      hall x (h1 ▸ List.mem_append_right _ hx)
    exact ⟨_, allDoneSignal.runLoop_exec outcome completed gs rest trace hrest, rfl, rfl⟩
  | inWait sg rest =>
    obtain ⟨pre, h1, _, _⟩ := hpc
    have hsg : sg ∈ completed := hall sg (h1 ▸ List.mem_append_right _ (List.mem_cons_self _ _))
    have hrest : ∀ x ∈ rest, x ∈ completed := fun x hx =>
      hall x (h1 ▸ List.mem_append_right _ (List.mem_cons_of_mem _ hx))
    have := allDoneSignal.runLoop_exec outcome completed gs rest
      (trace ++ [Event.waitReturned sg (outcome sg)]) hrest
    simp only [allDoneSignal.step] at this
    have key : exec (allDoneSignal.step outcome)
        { completed := completed
          call := { pc := allDonePC.inWait sg rest, trace := trace, goroutines := gs } }
        ((allDoneSignal.resume (allDonePC.inWait sg rest)).map WorldAction.act) =
        some { completed := completed
               call := { pc := allDonePC.returned none
                         trace := trace ++ [Event.waitReturned sg (outcome sg)] ++
                           rest.flatMap (allDoneSignal.visit outcome)
                         goroutines := gs } } := by
      simp only [allDoneSignal.resume, List.map_cons, exec, allDoneSignal.step, World.step,
        allDoneCall.step, hsg, if_true]
      exact this
    exact ⟨_, key, rfl, rfl⟩
  | returned e =>
    obtain ⟨h1, _, _⟩ := hpc
    subst h1
    exact ⟨_, rfl, rfl, rfl⟩

theorem allDoneSignal.allDone_sample_reachable :
    allDoneSignal.Reachable (UntilAllComplete [0, 1]) sampleOutcome allDoneSignal.sample :=
  ⟨allDoneSignal.sampleSchedule, by decide⟩

/-! ### `UntilAllComplete`: the claims -/

/-- C2: for every list of input signals (the empty list included) and every assignment of
outcomes to them, a `Wait` call on `UntilAllComplete(signals...)` that has returned has
returned `nil`; once all inputs have completed, the steps of the call alone take it to the
return of `nil`; and from every reachable state some continuation reaches that return. -/
theorem UntilAllComplete_Wait_returns_nil (signals : List SignalRef)
    (outcome : SignalRef → GoError) (w : World allDoneCall)
    (hw : allDoneSignal.Reachable (UntilAllComplete signals) outcome w) :
    (∀ e, w.call.pc = allDonePC.returned e → e = none) ∧
    ((∀ x ∈ signals, x ∈ w.completed) →
      ∃ t, exec (allDoneSignal.step outcome) w
          ((allDoneSignal.resume w.call.pc).map WorldAction.act) = some t ∧
        t.call.pc = allDonePC.returned none ∧ t.completed = w.completed) ∧
    (∃ acts t, exec (allDoneSignal.step outcome) w acts = some t ∧
      t.call.pc = allDonePC.returned none) := by
  have hinv := allDoneSignal.allDone_inv_reachable _ outcome w hw
  refine ⟨?_, ?_, ?_⟩
  · intro e he
    have := hinv.2
    rw [he] at this
    exact this.1
  · intro hall
    exact allDoneSignal.resume_exec _ outcome w hinv hall
  · have h1 := World.completeAll_exec (allDoneCall.step outcome) signals w
    have hinv2 : allDoneSignal.Inv (UntilAllComplete signals) outcome
        { w with completed := signals.reverse ++ w.completed } :=
      exec_invariant (allDoneSignal.step outcome) (allDoneSignal.Inv _ outcome)
        (fun s a t hs h => allDoneSignal.allDone_inv_step _ outcome s a t hs h) _ w _ hinv h1
    obtain ⟨t, ht, hpc, _⟩ := allDoneSignal.resume_exec _ outcome _ hinv2
      (fun x hx => List.mem_append_left _ (List.mem_reverse.mpr hx))
    refine ⟨signals.map WorldAction.complete ++
      (allDoneSignal.resume w.call.pc).map WorldAction.act, t, ?_, hpc⟩
    rw [exec_append]
    simp only [allDoneSignal.step] at h1 ht ⊢
    rw [h1]
    exact ht

/-- Witness of C2: `UntilAllComplete(0, 1).Wait()` with signal 1 failing has returned. -/
theorem UntilAllComplete_Wait_returns_nil_witness :
    allDoneSignal.Reachable (UntilAllComplete [0, 1]) sampleOutcome allDoneSignal.sample ∧
    ((∀ e, allDoneSignal.sample.call.pc = allDonePC.returned e → e = none) ∧
    ((∀ x ∈ [0, 1], x ∈ allDoneSignal.sample.completed) →
      ∃ t, exec (allDoneSignal.step sampleOutcome) allDoneSignal.sample
          ((allDoneSignal.resume allDoneSignal.sample.call.pc).map WorldAction.act) = some t ∧
        t.call.pc = allDonePC.returned none ∧ t.completed = allDoneSignal.sample.completed) ∧
    (∃ acts t, exec (allDoneSignal.step sampleOutcome) allDoneSignal.sample acts = some t ∧
      t.call.pc = allDonePC.returned none)) :=
  ⟨⟨allDoneSignal.sampleSchedule, by decide⟩,
    UntilAllComplete_Wait_returns_nil [0, 1] sampleOutcome allDoneSignal.sample
      ⟨allDoneSignal.sampleSchedule, by decide⟩⟩

/-- C7: in every reachable state of a `Wait` call on `UntilAllComplete(signals...)` the
call has started no goroutine and its trace is an initial part of "call `Wait` on the
first signal, it returns, call `Wait` on the second, ..." in the order of `signals`; when
the call has returned the trace is that whole sequence, so `Wait` was called exactly once
on each input in the given order, every input has completed, and with no input the trace
is empty. -/
theorem UntilAllComplete_Wait_sequential (signals : List SignalRef)
    (outcome : SignalRef → GoError) (w : World allDoneCall)
    (hw : allDoneSignal.Reachable (UntilAllComplete signals) outcome w) :
    w.call.goroutines = [] ∧
    (∃ rest, w.call.trace ++ rest = signals.flatMap (allDoneSignal.visit outcome)) ∧
    (∀ e, w.call.pc = allDonePC.returned e →
      w.call.trace = signals.flatMap (allDoneSignal.visit outcome) ∧
        allDoneSignal.observed w.call.trace = signals ∧ ∀ x ∈ signals, x ∈ w.completed) ∧
    ((∃ x ∈ signals, x ∉ w.completed) → ∀ e, w.call.pc ≠ allDonePC.returned e) ∧
    (signals = [] → w.call.trace = []) := by
  obtain ⟨hg, hpc⟩ := allDoneSignal.allDone_inv_reachable _ outcome w hw
  have hret : ∀ e, w.call.pc = allDonePC.returned e →
      w.call.trace = signals.flatMap (allDoneSignal.visit outcome) ∧
        allDoneSignal.observed w.call.trace = signals ∧ ∀ x ∈ signals, x ∈ w.completed := by
    intro e he
    rw [he] at hpc
    obtain ⟨_, h2, h3⟩ := hpc
    exact ⟨h2, by rw [h2]; exact allDoneSignal.observed_visits outcome signals, h3⟩
  have hpre : ∃ rest, w.call.trace ++ rest = signals.flatMap (allDoneSignal.visit outcome) := by
    cases hp : w.call.pc with
    | range rest =>
      rw [hp] at hpc
      obtain ⟨pre, h1, h2, _⟩ := hpc
      refine ⟨rest.flatMap (allDoneSignal.visit outcome), ?_⟩
      have h1 : signals = pre ++ rest := h1.symm
      rw [h2, h1, List.flatMap_append]
    | inWait sg rest =>
      rw [hp] at hpc
      obtain ⟨pre, h1, h2, _⟩ := hpc
      refine ⟨Event.waitReturned sg (outcome sg) ::
        rest.flatMap (allDoneSignal.visit outcome), ?_⟩
      have h1 : signals = pre ++ sg :: rest := h1.symm
      rw [h2, h1, List.flatMap_append]
      simp [allDoneSignal.visit]
    | returned e =>
      exact ⟨[], by rw [List.append_nil]; exact (hret e hp).1⟩
  refine ⟨hg, hpre, hret, ?_, ?_⟩
  · rintro ⟨x, hx, hnot⟩ e he
    exact hnot ((hret e he).2.2 x hx)
  · intro hnil
    obtain ⟨rest, hrest⟩ := hpre
    rw [hnil] at hrest
    simp only [List.flatMap_nil, List.append_eq_nil] at hrest
    exact hrest.1

/-- Witness of C7: the trace of `UntilAllComplete(0, 1).Wait()` after its return. -/
theorem UntilAllComplete_Wait_sequential_witness :
    allDoneSignal.Reachable (UntilAllComplete [0, 1]) sampleOutcome allDoneSignal.sample ∧
    (allDoneSignal.sample.call.goroutines = [] ∧
    (∃ rest, allDoneSignal.sample.call.trace ++ rest =
      [0, 1].flatMap (allDoneSignal.visit sampleOutcome)) ∧
    (∀ e, allDoneSignal.sample.call.pc = allDonePC.returned e →
      allDoneSignal.sample.call.trace = [0, 1].flatMap (allDoneSignal.visit sampleOutcome) ∧
        allDoneSignal.observed allDoneSignal.sample.call.trace = [0, 1] ∧
        ∀ x ∈ [0, 1], x ∈ allDoneSignal.sample.completed) ∧
    ((∃ x ∈ [0, 1], x ∉ allDoneSignal.sample.completed) →
      ∀ e, allDoneSignal.sample.call.pc ≠ allDonePC.returned e) ∧
    ([0, 1] = ([] : List SignalRef) → allDoneSignal.sample.call.trace = [])) :=
  ⟨⟨allDoneSignal.sampleSchedule, by decide⟩,
    UntilAllComplete_Wait_sequential [0, 1] sampleOutcome allDoneSignal.sample
      ⟨allDoneSignal.sampleSchedule, by decide⟩⟩

/-! ### `UntilAllSucceed`: the invariant -/

theorem countP_set_of_getElem? {α : Type} (p : α → Bool) (l : List α) :
    ∀ (j : Nat) (x y : α), l[j]? = some x →
      (l.set j y).countP p + (if p x then 1 else 0) = l.countP p + (if p y then 1 else 0) := by
  induction l with
  | nil => intro j x y h; simp at h
  | cons a rest ih =>
    intro j x y h
    cases j with
    | zero =>
      simp only [List.getElem?_cons_zero, Option.some.injEq] at h
      subst h
      simp only [List.set_cons_zero, List.countP_cons]
      omega
    | succ j =>
      simp only [List.getElem?_cons_succ] at h
      have := ih j x y h
      simp only [List.set_cons_succ, List.countP_cons]
      omega

theorem map_set_same {α β : Type} (g : α → β) (l : List α) :
    ∀ (j : Nat) (x y : α), l[j]? = some x → g y = g x → (l.set j y).map g = l.map g := by
  induction l with
  | nil => intro j x y h; simp at h
  | cons a rest ih =>
    intro j x y h hg
    cases j with
    | zero =>
      simp only [List.getElem?_cons_zero, Option.some.injEq] at h
      subst h
      simp [hg]
    | succ j =>
      simp only [List.getElem?_cons_succ] at h
      simp [ih j x y h hg]

theorem allSucceedCall.inv_mono (f : allSucceedSignal) (outcome : SignalRef → GoError)
    (completed : List SignalRef) (x : SignalRef) (c : allSucceedCall)
    (h : allSucceedCall.Inv f outcome completed c) :
    allSucceedCall.Inv f outcome (x :: completed) c := by
  obtain ⟨h1, h2, h3, h4, h5, h6⟩ := h
  refine ⟨h1, fun o ho hne => List.mem_cons_of_mem _ (h2 o ho hne), h3, ?_, h5, ?_⟩
  · intro e he
    obtain ⟨y, hy, hc, ho⟩ := h4 e he
    exact ⟨y, hy, List.mem_cons_of_mem _ hc, ho⟩
  · cases hpc : c.pc with
    | spawning rest => rw [hpc] at h6; exact h6
    | collecting i => rw [hpc] at h6; exact h6
    | returned e =>
      rw [hpc] at h6
      cases e with
      | none =>
        exact ⟨h6.1, h6.2.1, fun y hy => ⟨List.mem_cons_of_mem _ (h6.2.2 y hy).1, (h6.2.2 y hy).2⟩⟩
      | some a => exact h6

theorem allSucceedCall.inv_step (f : allSucceedSignal) (outcome : SignalRef → GoError)
    (completed : List SignalRef) (c : allSucceedCall) (a : allSucceedAction)
    (t : allSucceedCall) (hc : allSucceedCall.Inv f outcome completed c)
    (h : allSucceedCall.step f outcome completed c a = some t) :
    allSucceedCall.Inv f outcome completed t := by
  obtain ⟨obs, pc, rcv⟩ := c
  obtain ⟨h1, h2, h3, h4, h5, h6⟩ := hc
  simp only at h1 h2 h3 h4 h5 h6
  cases a with
  | go =>
    cases pc with
    | spawning todo =>
      cases todo with
      | nil => simp [allSucceedCall.step] at h
      | cons sg rest =>
        simp only [allSucceedCall.step, Option.some.injEq] at h
        subst h
        refine ⟨?_, ?_, ?_, h4, ?_, ?_⟩
        · intro o ho e he
          rcases List.mem_append.mp ho with ho | ho
          · exact h1 o ho e he
          · simp only [List.mem_singleton] at ho
            subst ho
            simp at he
        · intro o ho hne
          rcases List.mem_append.mp ho with ho | ho
          · exact h2 o ho hne
          · simp only [List.mem_singleton] at ho
            subst ho
            simp at hne
        · intro o ho he
          rcases List.mem_append.mp ho with ho | ho
          · exact h3 o ho he
          · simp only [List.mem_singleton] at ho
            subst ho
            simp at he
        · simpa [Observer.hasExited] using h5
        · refine ⟨?_, h6.2⟩
          simpa using h6.1
    | collecting i => simp [allSucceedCall.step] at h
    | returned e => simp [allSucceedCall.step] at h
  | initLoop =>
    cases pc with
    | spawning todo =>
      cases todo with
      | nil =>
        simp only [allSucceedCall.step, Option.some.injEq] at h
        subst h
        refine ⟨h1, h2, h3, h4, h5, ?_⟩
        exact ⟨by simpa using h6.1, by simpa using h6.2⟩
      | cons sg rest => simp [allSucceedCall.step] at h
    | collecting i => simp [allSucceedCall.step] at h
    | returned e => simp [allSucceedCall.step] at h
  | observerWaitReturns j =>
    cases hj : obs[j]? with
    | none => simp [allSucceedCall.step, hj] at h
    | some o =>
      obtain ⟨sg, opc⟩ := o
      cases opc with
      | sending e => simp [allSucceedCall.step, hj] at h
      | exited => simp [allSucceedCall.step, hj] at h
      | inWait =>
        by_cases hsg : sg ∈ completed
        · simp only [allSucceedCall.step, hj, hsg, if_true, Option.some.injEq] at h
          subst h
          refine ⟨?_, ?_, ?_, h4, ?_, ?_⟩
          · intro o ho e he
            rcases List.mem_or_eq_of_mem_set ho with ho | ho
            · exact h1 o ho e he
            · subst ho
              simp only [ObserverPC.sending.injEq] at he
              exact he.symm
          · intro o ho hne
            rcases List.mem_or_eq_of_mem_set ho with ho | ho
            · exact h2 o ho hne
            · subst ho
              exact hsg
          · intro o ho he
            rcases List.mem_or_eq_of_mem_set ho with ho | ho
            · exact h3 o ho he
            · subst ho
              simp at he
          · have := countP_set_of_getElem? Observer.hasExited obs j _
              { signal := sg, pc := ObserverPC.sending (outcome sg) } hj
            simp only [Observer.hasExited, Bool.false_eq_true, if_false, add_zero] at this
            simp only [Observer.hasExited] at h5 ⊢
            rw [this]
            exact h5
          · have hm := map_set_same Observer.signal obs j _
              { signal := sg, pc := ObserverPC.sending (outcome sg) } hj rfl
            simp only [hm]
            exact h6
        · simp [allSucceedCall.step, hj, hsg] at h
  | receive j =>
    cases pc with
    | spawning todo => simp [allSucceedCall.step] at h
    | returned e => simp [allSucceedCall.step] at h
    | collecting i =>
      obtain ⟨h6a, h6b⟩ := h6
      cases hj : obs[j]? with
      | none => simp [allSucceedCall.step, hj] at h
      | some o =>
        obtain ⟨sg, opc⟩ := o
        cases opc with
        | inWait => simp [allSucceedCall.step, hj] at h
        | exited => simp [allSucceedCall.step, hj] at h
        | sending err =>
          by_cases hi : i < f.signals.length
          · simp only [allSucceedCall.step, hj, hi, if_true, Option.some.injEq] at h
            subst h
            have hmem : ({ signal := sg, pc := ObserverPC.sending err } : Observer) ∈ obs :=
              List.mem_iff_getElem?.mpr ⟨j, hj⟩
            have herr : err = outcome sg := h1 _ hmem err rfl
            have hsgc : sg ∈ completed := h2 _ hmem (by simp)
            have hsgs : sg ∈ f.signals := by
              rw [← h6a]
              exact List.mem_map.mpr ⟨_, hmem, rfl⟩
            refine ⟨?_, ?_, ?_, ?_, ?_, ?_⟩
            · intro o ho e he
              rcases List.mem_or_eq_of_mem_set ho with ho | ho
              · exact h1 o ho e he
              · subst ho
                simp at he
            · intro o ho hne
              rcases List.mem_or_eq_of_mem_set ho with ho | ho
              · exact h2 o ho hne
              · subst ho
                exact hsgc
            · intro o ho he
              rcases List.mem_or_eq_of_mem_set ho with ho | ho
              · exact List.mem_append_left _ (h3 o ho he)
              · subst ho
                simp [herr]
            · intro e he
              rcases List.mem_append.mp he with he | he
              · exact h4 e he
              · simp only [List.mem_singleton] at he
                exact ⟨sg, hsgs, hsgc, by rw [he, herr]⟩
            · have := countP_set_of_getElem? Observer.hasExited obs j _
                { signal := sg, pc := ObserverPC.exited } hj
              simp only [Observer.hasExited, Bool.false_eq_true, if_false, add_zero,
                if_true] at this
              simp only [Observer.hasExited, List.length_append, List.length_singleton] at h5 ⊢
              rw [this, h5]
            · have hm := map_set_same Observer.signal obs j _
                { signal := sg, pc := ObserverPC.exited } hj rfl
              cases err with
              | none =>
                simp only [ne_eq, not_true_eq_false, if_false]
                refine ⟨by rw [hm]; exact h6a, ?_⟩
                rw [h6b, List.replicate_succ']
              | some a =>
                simp only [ne_eq, reduceCtorEq, not_false_eq_true, if_true]
                refine ⟨by rw [hm]; exact h6a, i, hi, ?_⟩
                rw [h6b]
          · simp [allSucceedCall.step, hj, hi] at h
  | returnNil =>
    cases pc with
    | spawning todo => simp [allSucceedCall.step] at h
    | returned e => simp [allSucceedCall.step] at h
    | collecting i =>
      obtain ⟨h6a, h6b⟩ := h6
      by_cases hi : i < f.signals.length
      · simp [allSucceedCall.step, hi] at h
      · simp only [allSucceedCall.step, hi, if_false, Option.some.injEq] at h
        subst h
        have hlen : obs.length = f.signals.length := by
          rw [← h6a, List.length_map]
        have hcnt : obs.countP Observer.hasExited = i := by
          rw [h5, h6b, List.length_replicate]
        have hle : i ≤ obs.length := hcnt ▸ List.countP_le_length _
        have hin : i = f.signals.length := by omega
        have hall : ∀ o ∈ obs, Observer.hasExited o = true :=
          List.countP_eq_length.mp (by rw [hcnt, hin, hlen])
        refine ⟨h1, h2, h3, h4, h5, h6a, by rw [h6b, hin], ?_⟩
        intro x hx
        rw [← h6a] at hx
        obtain ⟨o, ho, rfl⟩ := List.mem_map.mp hx
        have hex : o.pc = ObserverPC.exited := by
          have := hall o ho
          simp only [Observer.hasExited] at this
          split at this
          · assumption
          · simp at this
        refine ⟨h2 o ho (by rw [hex]; simp), ?_⟩
        have := h3 o ho hex
        rw [h6b] at this
        exact List.eq_of_mem_replicate this

theorem allSucceedSignal.allSucceed_inv_init (f : allSucceedSignal)
    (outcome : SignalRef → GoError) :
    allSucceedCall.Inv f outcome f.Wait.completed f.Wait.call := by
  refine ⟨?_, ?_, ?_, ?_, rfl, ?_⟩
  · intro o ho; simp [allSucceedSignal.Wait] at ho
  · intro o ho; simp [allSucceedSignal.Wait] at ho
  · intro o ho; simp [allSucceedSignal.Wait] at ho
  · intro e he; simp [allSucceedSignal.Wait] at he
  · exact ⟨rfl, rfl⟩

theorem allSucceedSignal.allSucceed_inv_step (f : allSucceedSignal)
    (outcome : SignalRef → GoError) (w : World allSucceedCall)
    (a : WorldAction allSucceedAction) (t : World allSucceedCall)
    (hw : allSucceedCall.Inv f outcome w.completed w.call)
    (h : allSucceedSignal.step f outcome w a = some t) :
    allSucceedCall.Inv f outcome t.completed t.call := by
  cases a with
  | complete x =>
    simp only [allSucceedSignal.step, World.step, Option.some.injEq] at h
    subst h
    exact allSucceedCall.inv_mono f outcome w.completed x w.call hw
  | act b =>
    simp only [allSucceedSignal.step, World.step] at h
    cases hb : allSucceedCall.step f outcome w.completed w.call b with
    | none => simp [hb] at h
    | some c =>
      simp only [hb, Option.some.injEq] at h
      subst h
      exact allSucceedCall.inv_step f outcome w.completed w.call b c hw hb

theorem allSucceedSignal.allSucceed_inv_exec (f : allSucceedSignal)
    (outcome : SignalRef → GoError) (acts : List (WorldAction allSucceedAction))
    (w t : World allSucceedCall) (hw : allSucceedCall.Inv f outcome w.completed w.call)
    (h : exec (allSucceedSignal.step f outcome) w acts = some t) :
    allSucceedCall.Inv f outcome t.completed t.call :=
  exec_invariant (allSucceedSignal.step f outcome)
    (fun u => allSucceedCall.Inv f outcome u.completed u.call)
    (fun s a t hs h => allSucceedSignal.allSucceed_inv_step f outcome s a t hs h) acts w t hw h

theorem allSucceedSignal.allSucceed_inv_reachable (f : allSucceedSignal)
    (outcome : SignalRef → GoError) (w : World allSucceedCall)
    (h : allSucceedSignal.Reachable f outcome w) :
    allSucceedCall.Inv f outcome w.completed w.call := by
  obtain ⟨acts, hacts⟩ := h
  exact allSucceedSignal.allSucceed_inv_exec f outcome acts f.Wait w
    (allSucceedSignal.allSucceed_inv_init f outcome) hacts

/-! ### `UntilAllSucceed`: the call runs to its return -/

theorem getElem?_set_of_getElem? {α : Type} (l : List α) :
    ∀ (j : Nat) (x y : α), l[j]? = some x → (l.set j y)[j]? = some y := by
  induction l with
  | nil => intro j x y h; simp at h
  | cons a rest ih =>
    intro j x y h
    cases j with
    | zero => simp
    | succ j =>
      simp only [List.getElem?_cons_succ] at h
      simpa using ih j x y h

theorem exists_getElem?_of_countP_lt {α : Type} (p : α → Bool) (l : List α)
    (h : l.countP p < l.length) : ∃ (j : Nat) (x : α), l[j]? = some x ∧ p x = false := by
  induction l with
  | nil => simp at h
  | cons a rest ih =>
    by_cases hp : p a = true
    · simp only [List.countP_cons, hp, if_true, List.length_cons] at h
      obtain ⟨j, x, hj, hx⟩ := ih (by omega)
      exact ⟨j + 1, x, by simpa using hj, hx⟩
    · exact ⟨0, a, by simp, by simpa using hp⟩

theorem allSucceedSignal.spawn_exec (f : allSucceedSignal) (outcome : SignalRef → GoError)
    (completed : List SignalRef) (rcv : List GoError) (rest : List SignalRef) :
    ∀ obs : List Observer,
      exec (allSucceedSignal.step f outcome)
          { completed := completed
            call := { observers := obs, pc := allSucceedPC.spawning rest, received := rcv } }
          (rest.map (fun _ => WorldAction.act allSucceedAction.go) ++
            [WorldAction.act allSucceedAction.initLoop]) =
        some { completed := completed
               call := { observers := obs ++ rest.map
                           (fun sg => { signal := sg, pc := ObserverPC.inWait })
                         pc := allSucceedPC.collecting 0, received := rcv } } := by
  induction rest with
  | nil =>
    intro obs
    simp [exec, allSucceedSignal.step, World.step, allSucceedCall.step]
  | cons sg rest ih =>
    intro obs
    have := ih (obs ++ [{ signal := sg, pc := ObserverPC.inWait }])
    simp only [allSucceedSignal.step, List.append_assoc, List.singleton_append] at this
    simp only [List.map_cons, List.cons_append, exec, allSucceedSignal.step, World.step,
      allSucceedCall.step]
    exact this

theorem allSucceedSignal.receive_step (f : allSucceedSignal) (outcome : SignalRef → GoError)
    (w : World allSucceedCall) (i j : Nat) (sg : SignalRef) (err : GoError)
    (hpc : w.call.pc = allSucceedPC.collecting i) (hi : i < f.signals.length)
    (hj : w.call.observers[j]? = some { signal := sg, pc := ObserverPC.sending err }) :
    ∃ t, allSucceedSignal.step f outcome w (WorldAction.act (allSucceedAction.receive j)) =
        some t ∧ t.completed = w.completed ∧
      t.call.pc = (if err ≠ none then allSucceedPC.returned err
        else allSucceedPC.collecting (i + 1)) ∧
      t.call.received = w.call.received ++ [err] := by
  obtain ⟨completed, obs, pc, rcv⟩ := w
  simp only at hpc hj
  subst hpc
  refine ⟨{ completed := completed
            call := { observers := obs.set j { signal := sg, pc := ObserverPC.exited }
                      pc := if err ≠ none then allSucceedPC.returned err
                            else allSucceedPC.collecting (i + 1)
                      received := rcv ++ [err] } }, ?_, rfl, rfl, rfl⟩
  simp only [allSucceedSignal.step, World.step, allSucceedCall.step, hj, hi, if_true]

theorem allSucceedSignal.collect_progress (f : allSucceedSignal)
    (outcome : SignalRef → GoError) (d : Nat) :
    ∀ (w : World allSucceedCall) (i : Nat),
      allSucceedCall.Inv f outcome w.completed w.call →
      (∀ x ∈ f.signals, x ∈ w.completed) →
      w.call.pc = allSucceedPC.collecting i → f.signals.length - i = d →
      ∃ acts t e, exec (allSucceedSignal.step f outcome) w acts = some t ∧
        t.call.pc = allSucceedPC.returned e := by
  induction d with
  | zero =>
    intro w i _ _ hpc hd
    obtain ⟨completed, obs, pc, rcv⟩ := w
    simp only at hpc
    subst hpc
    have hi : ¬ i < f.signals.length := by omega
    exact ⟨[WorldAction.act allSucceedAction.returnNil],
      { completed := completed
        call := { observers := obs, pc := allSucceedPC.returned none, received := rcv } },
      none, by simp [exec, allSucceedSignal.step, World.step, allSucceedCall.step, hi], rfl⟩
  | succ d ih =>
    intro w i hinv hall hpc hd
    have hi : i < f.signals.length := by omega
    obtain ⟨h1, h2, h3, h4, h5, h6⟩ := hinv
    rw [hpc] at h6
    obtain ⟨h6a, h6b⟩ := h6
    have hlen : w.call.observers.length = f.signals.length := by
      rw [← h6a, List.length_map]
    have hlt : w.call.observers.countP Observer.hasExited < w.call.observers.length := by
      rw [h5, h6b, List.length_replicate, hlen]
      exact hi
    obtain ⟨j, o, hj, hne⟩ := exists_getElem?_of_countP_lt _ _ hlt
    obtain ⟨sg, opc⟩ := o
    have hsg : sg ∈ w.completed := by
      apply hall
      rw [← h6a]
      exact List.mem_map.mpr ⟨_, List.mem_iff_getElem?.mpr ⟨j, hj⟩, rfl⟩
    -- after observer `j` has its value ready, the collector receives it
    have finish : ∀ (u : World allSucceedCall) (err : GoError),
        allSucceedCall.Inv f outcome u.completed u.call → u.completed = w.completed →
        u.call.pc = allSucceedPC.collecting i →
        u.call.observers[j]? = some { signal := sg, pc := ObserverPC.sending err } →
        ∃ acts t e, exec (allSucceedSignal.step f outcome) u acts = some t ∧
          t.call.pc = allSucceedPC.returned e := by
      intro u err hu hcu hpu hju
      obtain ⟨t, ht, hct, hpt, _⟩ :=
        allSucceedSignal.receive_step f outcome u i j sg err hpu hi hju
      have hinvt := allSucceedSignal.allSucceed_inv_step f outcome u _ t hu ht
      cases err with
      | some a =>
        refine ⟨[WorldAction.act (allSucceedAction.receive j)], t, some a, ?_, ?_⟩
        · simp [exec, ht]
        · simpa using hpt
      | none =>
        simp only [ne_eq, not_true_eq_false, if_false] at hpt
        obtain ⟨acts, t2, e, hex, hret⟩ := ih t (i + 1) hinvt
          (by rw [hct, hcu]; exact hall) hpt (by omega)
        refine ⟨WorldAction.act (allSucceedAction.receive j) :: acts, t2, e, ?_, hret⟩
        simp [exec, ht, hex]
    cases opc with
    | exited => simp [Observer.hasExited] at hne
    | sending err => exact finish w err ⟨h1, h2, h3, h4, h5, by rw [hpc]; exact ⟨h6a, h6b⟩⟩ rfl hpc hj
    | inWait =>
      have hstep : allSucceedSignal.step f outcome w
          (WorldAction.act (allSucceedAction.observerWaitReturns j)) =
          some { completed := w.completed
                 call := { observers := w.call.observers.set j
                             { signal := sg, pc := ObserverPC.sending (outcome sg) }
                           pc := w.call.pc, received := w.call.received } } := by
        simp only [allSucceedSignal.step, World.step, allSucceedCall.step, hj, hsg, if_true]
      have hinvu := allSucceedSignal.allSucceed_inv_step f outcome w _ _
        ⟨h1, h2, h3, h4, h5, by rw [hpc]; exact ⟨h6a, h6b⟩⟩ hstep
      obtain ⟨acts, t, e, hex, hret⟩ := finish _ (outcome sg) hinvu rfl hpc
        (getElem?_set_of_getElem? _ j _ _ hj)
      refine ⟨WorldAction.act (allSucceedAction.observerWaitReturns j) :: acts, t, e, ?_, hret⟩
      simp only [exec, hstep]
      exact hex

theorem allSucceedSignal.allSucceed_progress (f : allSucceedSignal)
    (outcome : SignalRef → GoError) (w : World allSucceedCall)
    (hinv : allSucceedCall.Inv f outcome w.completed w.call)
    (hall : ∀ x ∈ f.signals, x ∈ w.completed) :
    ∃ acts t e, exec (allSucceedSignal.step f outcome) w acts = some t ∧
      t.call.pc = allSucceedPC.returned e := by
  cases hpc : w.call.pc with
  | returned e => exact ⟨[], w, e, rfl, hpc⟩
  | collecting i =>
    exact allSucceedSignal.collect_progress f outcome _ w i hinv hall hpc rfl
  | spawning rest =>
    obtain ⟨completed, obs, pc, rcv⟩ := w
    simp only at hpc hall
    subst hpc
    have h1 := allSucceedSignal.spawn_exec f outcome completed rcv rest obs
    have hinv2 := allSucceedSignal.allSucceed_inv_exec f outcome _ _ _ hinv h1
    obtain ⟨acts, t, e, hex, hret⟩ :=
      allSucceedSignal.collect_progress f outcome _ _ 0 hinv2 hall rfl rfl
    refine ⟨(rest.map (fun _ => WorldAction.act allSucceedAction.go) ++
      [WorldAction.act allSucceedAction.initLoop]) ++ acts, t, e, ?_, hret⟩
    rw [exec_append, h1]
    exact hex

theorem allSucceedSignal.allSucceed_can_return (f : allSucceedSignal)
    (outcome : SignalRef → GoError) (w : World allSucceedCall)
    (hinv : allSucceedCall.Inv f outcome w.completed w.call) :
    ∃ acts t e, exec (allSucceedSignal.step f outcome) w acts = some t ∧
      t.call.pc = allSucceedPC.returned e := by
  have h1 := World.completeAll_exec (allSucceedCall.step f outcome) f.signals w
  have hinv2 := allSucceedSignal.allSucceed_inv_exec f outcome _ w _ hinv h1
  obtain ⟨acts, t, e, hex, hret⟩ := allSucceedSignal.allSucceed_progress f outcome _ hinv2
    (fun x hx => List.mem_append_left _ (List.mem_reverse.mpr hx))
  refine ⟨f.signals.map WorldAction.complete ++ acts, t, e, ?_, hret⟩
  rw [exec_append]
  simp only [allSucceedSignal.step] at h1 hex ⊢
  rw [h1]
  exact hex

/-! ### `UntilAllSucceed`: the collector loop as a function of the deliveries -/

theorem allSucceedSignal.collect_fail (n : Nat) (F : GoError) (hF : F ≠ none)
    (rest : List GoError) (m : Nat) :
    ∀ i, i + m < n →
      allSucceedSignal.collect n i (List.replicate m none ++ F :: rest) = some (F, i + m + 1) := by
  induction m with
  | zero =>
    intro i hi
    have hi2 : i < n := by omega
    simp [allSucceedSignal.collect, hi2, hF]
  | succ m ih =>
    intro i hi
    have hi2 : i < n := by omega
    have := ih (i + 1) (by omega)
    have harith : i + 1 + m + 1 = i + (m + 1) + 1 := by omega
    rw [List.replicate_succ, List.cons_append, allSucceedSignal.collect]
    simp only [hi2, if_true, ne_eq, not_true_eq_false, if_false]
    rw [this, harith]

theorem allSucceedSignal.collect_all_nil (n : Nat) (ds : List GoError) :
    ∀ i, (∀ d ∈ ds, d = none) → i + ds.length = n →
      allSucceedSignal.collect n i ds = some (none, n) := by
  induction ds with
  | nil =>
    intro i _ hi
    have hi2 : ¬ i < n := by simp at hi; omega
    have hi3 : i = n := by simpa using hi
    simp [allSucceedSignal.collect, hi2, hi3]
  | cons d rest ih =>
    intro i hall hi
    have hd : d = none := hall d (List.mem_cons_self _ _)
    have hi2 : i < n := by simp at hi; omega
    subst hd
    simp only [allSucceedSignal.collect, hi2, if_true, ne_eq, not_true_eq_false, if_false]
    exact ih (i + 1) (fun x hx => hall x (List.mem_cons_of_mem _ hx))
      (by simp at hi ⊢; omega)

theorem allSucceedSignal.collect_nils_then (n : Nat) (rest : List GoError) (m : Nat) :
    ∀ i, i + m = n →
      allSucceedSignal.collect n i (List.replicate m none ++ rest) = some (none, n) := by
  induction m with
  | zero =>
    intro i hi
    have hi2 : ¬ i < n := by omega
    have hi3 : i = n := by omega
    cases rest <;> simp [allSucceedSignal.collect, hi2, hi3]
  | succ m ih =>
    intro i hi
    have hi2 : i < n := by omega
    rw [List.replicate_succ, List.cons_append, allSucceedSignal.collect]
    simp only [hi2, if_true, ne_eq, not_true_eq_false, if_false]
    exact ih (i + 1) (by omega)

theorem allSucceedSignal.collect_blocked (n : Nat) (m : Nat) :
    ∀ i, i + m < n → allSucceedSignal.collect n i (List.replicate m none) = none := by
  induction m with
  | zero =>
    intro i hi
    have hi2 : i < n := by omega
    simp [allSucceedSignal.collect, hi2]
  | succ m ih =>
    intro i hi
    have hi2 : i < n := by omega
    simp only [List.replicate_succ, allSucceedSignal.collect, hi2, if_true, ne_eq,
      not_true_eq_false, if_false]
    exact ih (i + 1) (by omega)

theorem allSucceedSignal.collect_total (n : Nat) (ds : List GoError) :
    ∀ i, i + ds.length = n →
      ∃ e k, allSucceedSignal.collect n i ds = some (e, k) ∧ k ≤ n ∧
        ((e = none ∧ k = n ∧ ∀ d ∈ ds, d = none) ∨ (e ≠ none ∧ e ∈ ds)) := by
  induction ds with
  | nil =>
    intro i hi
    have hi3 : i = n := by simpa using hi
    subst hi3
    exact ⟨none, i, by simp [allSucceedSignal.collect], le_refl _, Or.inl ⟨rfl, rfl, by simp⟩⟩
  | cons d rest ih =>
    intro i hi
    have hi2 : i < n := by simp at hi; omega
    cases d with
    | some a =>
      exact ⟨some a, i + 1, by simp [allSucceedSignal.collect, hi2], hi2,
        Or.inr ⟨by simp, List.mem_cons_self _ _⟩⟩
    | none =>
      obtain ⟨e, k, hc, hk, hor⟩ := ih (i + 1) (by simp at hi ⊢; omega)
      refine ⟨e, k, by simp [allSucceedSignal.collect, hi2, hc], hk, ?_⟩
      rcases hor with ⟨h1, h2, h3⟩ | ⟨h1, h2⟩
      · refine Or.inl ⟨h1, h2, ?_⟩
        intro x hx
        rcases List.mem_cons.mp hx with hx | hx
        · exact hx
        · exact h3 x hx
      · exact Or.inr ⟨h1, List.mem_cons_of_mem _ h2⟩

theorem allSucceedSignal.collect_perm (signals : List SignalRef)
    (outcome : SignalRef → GoError) (ds : List GoError)
    (hperm : ds.Perm (signals.map outcome)) :
    ∃ e k, allSucceedSignal.collect signals.length 0 ds = some (e, k) ∧ k ≤ signals.length ∧
      ((e = none ∧ k = signals.length ∧ ∀ x ∈ signals, outcome x = none) ∨
        (e ≠ none ∧ ∃ x ∈ signals, outcome x = e)) := by
  have hlen : 0 + ds.length = signals.length := by
    rw [hperm.length_eq, List.length_map, Nat.zero_add]
  obtain ⟨e, k, hc, hk, hor⟩ := allSucceedSignal.collect_total signals.length ds 0 hlen
  refine ⟨e, k, hc, hk, ?_⟩
  rcases hor with ⟨h1, h2, h3⟩ | ⟨h1, h2⟩
  · refine Or.inl ⟨h1, h2, ?_⟩
    intro x hx
    exact h3 _ (hperm.mem_iff.mpr (List.mem_map.mpr ⟨x, hx, rfl⟩))
  · refine Or.inr ⟨h1, ?_⟩
    obtain ⟨x, hx, hxe⟩ := List.mem_map.mp (hperm.mem_iff.mp h2)
    exact ⟨x, hx, hxe⟩

theorem allSucceedSignal.returned_facts (f : allSucceedSignal) (outcome : SignalRef → GoError)
    (w : World allSucceedCall) (hinv : allSucceedCall.Inv f outcome w.completed w.call)
    (e : GoError) (hpc : w.call.pc = allSucceedPC.returned e) :
    (e = none → ∀ x ∈ f.signals, x ∈ w.completed ∧ outcome x = none) ∧
    (e ≠ none → ∃ x ∈ f.signals, x ∈ w.completed ∧ outcome x = e) ∧
    allSucceedSignal.collect f.signals.length 0 w.call.received =
      some (e, w.call.received.length) := by
  obtain ⟨_, _, _, h4, _, h6⟩ := hinv
  rw [hpc] at h6
  cases e with
  | none =>
    obtain ⟨_, h6b, h6c⟩ := h6
    refine ⟨fun _ => h6c, fun h => absurd rfl h, ?_⟩
    rw [h6b, List.length_replicate]
    exact allSucceedSignal.collect_all_nil _ _ 0
      (fun d hd => List.eq_of_mem_replicate hd) (by simp)
  | some a =>
    obtain ⟨_, k, hk, h6b⟩ := h6
    refine ⟨fun h => by simp at h, fun _ => ?_, ?_⟩
    · exact h4 (some a) (by rw [h6b]; simp)
    · rw [h6b]
      have := allSucceedSignal.collect_fail f.signals.length (some a) (by simp) [] k 0
        (by omega)
      simp only [Nat.zero_add] at this
      simpa using this

theorem allSucceedSignal.allSucceed_sample_reachable :
    allSucceedSignal.Reachable (UntilAllSucceed [0, 1]) sampleOutcome allSucceedSignal.sample :=
  ⟨allSucceedSignal.sampleSchedule, by decide⟩

/-! ### `UntilAllSucceed`: the claims about one call -/

/-- C3: for every list of input signals (the empty list included) and every assignment of
outcomes, a `Wait` call on `UntilAllSucceed(signals...)` that has returned `e` has `e = nil`
exactly when every input's outcome is `nil`, and it returns `nil` only when every input has
completed; from every reachable state some continuation reaches a return; and run on any
order `ds` of delivery of all the outcomes the collector loop returns, with `nil` exactly
when every outcome is `nil`. -/
theorem UntilAllSucceed_Wait_nil_iff_all_succeed (signals : List SignalRef)
    (outcome : SignalRef → GoError) (w : World allSucceedCall)
    (hw : allSucceedSignal.Reachable (UntilAllSucceed signals) outcome w) :
    (∀ e, w.call.pc = allSucceedPC.returned e →
      (e = none ↔ ∀ x ∈ signals, outcome x = none)) ∧
    (w.call.pc = allSucceedPC.returned none → ∀ x ∈ signals, x ∈ w.completed) ∧
    (∃ acts t e, exec (allSucceedSignal.step (UntilAllSucceed signals) outcome) w acts = some t ∧
      t.call.pc = allSucceedPC.returned e) ∧
    (∀ ds : List GoError, ds.Perm (signals.map outcome) →
      ∃ e k, allSucceedSignal.collect signals.length 0 ds = some (e, k) ∧
        (e = none ↔ ∀ x ∈ signals, outcome x = none)) := by
  have hinv := allSucceedSignal.allSucceed_inv_reachable _ outcome w hw
  refine ⟨?_, ?_, allSucceedSignal.allSucceed_can_return _ outcome w hinv, ?_⟩
  · intro e he
    obtain ⟨h1, h2, _⟩ := allSucceedSignal.returned_facts _ outcome w hinv e he
    constructor
    · intro hnil x hx
      exact (h1 hnil x hx).2
    · intro hall
      by_contra hne
      obtain ⟨x, hx, _, hxe⟩ := h2 hne
      exact hne (hxe ▸ hall x hx)
  · intro he x hx
    exact ((allSucceedSignal.returned_facts _ outcome w hinv none he).1 rfl x hx).1
  · intro ds hperm
    obtain ⟨e, k, hc, _, hor⟩ := allSucceedSignal.collect_perm signals outcome ds hperm
    refine ⟨e, k, hc, ?_⟩
    rcases hor with ⟨h1, _, h3⟩ | ⟨h1, x, hx, hxe⟩
    · exact ⟨fun _ => h3, fun _ => h1⟩
    · exact ⟨fun h => absurd h h1, fun hall => absurd (hxe ▸ hall x hx) h1⟩

/-- Witness of C3 at the sample state of `UntilAllSucceed(0, 1).Wait()`. -/
theorem UntilAllSucceed_Wait_nil_iff_all_succeed_witness :
    allSucceedSignal.Reachable (UntilAllSucceed [0, 1]) sampleOutcome allSucceedSignal.sample ∧
    ((∀ e, allSucceedSignal.sample.call.pc = allSucceedPC.returned e →
      (e = none ↔ ∀ x ∈ [0, 1], sampleOutcome x = none)) ∧
    (allSucceedSignal.sample.call.pc = allSucceedPC.returned none →
      ∀ x ∈ [0, 1], x ∈ allSucceedSignal.sample.completed) ∧
    (∃ acts t e, exec (allSucceedSignal.step (UntilAllSucceed [0, 1]) sampleOutcome)
        allSucceedSignal.sample acts = some t ∧ t.call.pc = allSucceedPC.returned e) ∧
    (∀ ds : List GoError, ds.Perm ([0, 1].map sampleOutcome) →
      ∃ e k, allSucceedSignal.collect [0, 1].length 0 ds = some (e, k) ∧
        (e = none ↔ ∀ x ∈ [0, 1], sampleOutcome x = none))) :=
  ⟨⟨allSucceedSignal.sampleSchedule, by decide⟩,
    UntilAllSucceed_Wait_nil_iff_all_succeed [0, 1] sampleOutcome allSucceedSignal.sample
      ⟨allSucceedSignal.sampleSchedule, by decide⟩⟩

/-- C4: when at least one input of `UntilAllSucceed(signals...)` fails, a `Wait` call that
has returned has returned a non-nil error that is the outcome of one of the inputs, and
that input has completed; if every failing input fails with the same reason `F`, in
particular if exactly one input, at any position, fails with `F`, the call returns `F`;
from every reachable state some continuation reaches a return; and run on any order `ds`
of delivery of all the outcomes the collector loop returns the failure of some input. -/
theorem UntilAllSucceed_Wait_returns_a_failure (signals : List SignalRef)
    (outcome : SignalRef → GoError) (w : World allSucceedCall)
    (hw : allSucceedSignal.Reachable (UntilAllSucceed signals) outcome w)
    (hfail : ∃ x ∈ signals, outcome x ≠ none) :
    (∀ e, w.call.pc = allSucceedPC.returned e →
      e ≠ none ∧ ∃ x ∈ signals, x ∈ w.completed ∧ outcome x = e) ∧
    (∀ F, (∀ x ∈ signals, outcome x = none ∨ outcome x = F) →
      ∀ e, w.call.pc = allSucceedPC.returned e → e = F) ∧
    (∀ pre x post F, signals = pre ++ x :: post → outcome x = F →
      (∀ y ∈ pre ++ post, outcome y = none) →
      ∀ e, w.call.pc = allSucceedPC.returned e → e = F) ∧
    (∃ acts t e, exec (allSucceedSignal.step (UntilAllSucceed signals) outcome) w acts = some t ∧
      t.call.pc = allSucceedPC.returned e) ∧
    (∀ ds : List GoError, ds.Perm (signals.map outcome) →
      ∃ e k, allSucceedSignal.collect signals.length 0 ds = some (e, k) ∧
        e ≠ none ∧ ∃ x ∈ signals, outcome x = e) := by
  have hinv := allSucceedSignal.allSucceed_inv_reachable _ outcome w hw
  obtain ⟨z, hz, hzne⟩ := hfail
  have hret : ∀ e, w.call.pc = allSucceedPC.returned e →
      e ≠ none ∧ ∃ x ∈ signals, x ∈ w.completed ∧ outcome x = e := by
    intro e he
    obtain ⟨h1, h2, _⟩ := allSucceedSignal.returned_facts _ outcome w hinv e he
    have hne : e ≠ none := fun hnil => hzne (h1 hnil z hz).2
    exact ⟨hne, h2 hne⟩
  have hsame : ∀ F, (∀ x ∈ signals, outcome x = none ∨ outcome x = F) →
      ∀ e, w.call.pc = allSucceedPC.returned e → e = F := by
    intro F hF e he
    obtain ⟨hne, x, hx, _, hxe⟩ := hret e he
    rcases hF x hx with h | h
    · exact absurd (hxe ▸ h) hne
    · exact hxe ▸ h
  refine ⟨hret, hsame, ?_, allSucceedSignal.allSucceed_can_return _ outcome w hinv, ?_⟩
  · intro pre x post F hsig hxF hrest e he
    apply hsame F _ e he
    intro y hy
    rw [hsig] at hy
    rcases List.mem_append.mp hy with hy | hy
    · exact Or.inl (hrest y (List.mem_append_left _ hy))
    · rcases List.mem_cons.mp hy with hy | hy
      · exact Or.inr (hy ▸ hxF)
      · exact Or.inl (hrest y (List.mem_append_right _ hy))
  · intro ds hperm
    obtain ⟨e, k, hc, _, hor⟩ := allSucceedSignal.collect_perm signals outcome ds hperm
    refine ⟨e, k, hc, ?_⟩
    rcases hor with ⟨_, _, h3⟩ | ⟨h1, h2⟩
    · exact absurd (h3 z hz) hzne
    · exact ⟨h1, h2⟩

/-- Witness of C4: `UntilAllSucceed(0, 1).Wait()` where signal 1 fails with error 5. -/
theorem UntilAllSucceed_Wait_returns_a_failure_witness :
    allSucceedSignal.Reachable (UntilAllSucceed [0, 1]) sampleOutcome allSucceedSignal.sample ∧
    (∃ x ∈ [0, 1], sampleOutcome x ≠ none) ∧
    ((∀ e, allSucceedSignal.sample.call.pc = allSucceedPC.returned e →
      e ≠ none ∧ ∃ x ∈ [0, 1], x ∈ allSucceedSignal.sample.completed ∧ sampleOutcome x = e) ∧
    (∀ F, (∀ x ∈ [0, 1], sampleOutcome x = none ∨ sampleOutcome x = F) →
      ∀ e, allSucceedSignal.sample.call.pc = allSucceedPC.returned e → e = F) ∧
    (∀ pre x post F, [0, 1] = pre ++ x :: post → sampleOutcome x = F →
      (∀ y ∈ pre ++ post, sampleOutcome y = none) →
      ∀ e, allSucceedSignal.sample.call.pc = allSucceedPC.returned e → e = F) ∧
    (∃ acts t e, exec (allSucceedSignal.step (UntilAllSucceed [0, 1]) sampleOutcome)
        allSucceedSignal.sample acts = some t ∧ t.call.pc = allSucceedPC.returned e) ∧
    (∀ ds : List GoError, ds.Perm ([0, 1].map sampleOutcome) →
      ∃ e k, allSucceedSignal.collect [0, 1].length 0 ds = some (e, k) ∧
        e ≠ none ∧ ∃ x ∈ [0, 1], sampleOutcome x = e)) :=
  ⟨⟨allSucceedSignal.sampleSchedule, by decide⟩, ⟨1, by decide, by decide⟩,
    UntilAllSucceed_Wait_returns_a_failure [0, 1] sampleOutcome allSucceedSignal.sample
      ⟨allSucceedSignal.sampleSchedule, by decide⟩ ⟨1, by decide, by decide⟩⟩

/-- C5: the collector loop of `allSucceedSignal.Wait` over `n` signals, run on a delivery
sequence whose first `k - 1` values are `nil` and whose `k`-th value is a failure `F`
(`1 ≤ k ≤ n`), returns `F` after exactly `k` receives whatever is or is not delivered
afterwards, and run on `n` values that are all `nil` it returns `nil` after exactly `n`
receives; and the call agrees with it: a returned call has returned what the loop computes
on the values it received, a call that has received `k - 1` times `nil` and then `F` has
returned `F`, and a call that has received `n` times `nil` returns `nil` by its own steps
without a further receive.  With fewer than `n` values delivered, all `nil`, the loop does
not return but blocks in its receive, and so does the call: it has not returned and its
`return nil` is not enabled; a call returns `nil` only after exactly `n` receives. -/
theorem UntilAllSucceed_Wait_fail_fast (signals : List SignalRef)
    (outcome : SignalRef → GoError) (w : World allSucceedCall)
    (hw : allSucceedSignal.Reachable (UntilAllSucceed signals) outcome w) :
    (∀ k F rest, 1 ≤ k → k ≤ signals.length → F ≠ none →
      allSucceedSignal.collect signals.length 0 (List.replicate (k - 1) none ++ F :: rest) =
        some (F, k)) ∧
    (∀ ds : List GoError, (∀ d ∈ ds, d = none) → ds.length = signals.length →
      allSucceedSignal.collect signals.length 0 ds = some (none, signals.length)) ∧
    (∀ e, w.call.pc = allSucceedPC.returned e →
      allSucceedSignal.collect signals.length 0 w.call.received =
        some (e, w.call.received.length)) ∧
    (∀ k F, 1 ≤ k → F ≠ none → w.call.received = List.replicate (k - 1) none ++ [F] →
      w.call.pc = allSucceedPC.returned F ∧ k ≤ signals.length) ∧
    (w.call.received = List.replicate signals.length none →
      ∃ t, exec (allSucceedSignal.step (UntilAllSucceed signals) outcome) w
          ((allSucceedSignal.resume w.call.pc).map WorldAction.act) = some t ∧
        t.call.pc = allSucceedPC.returned none ∧ t.call.received = w.call.received) ∧
    (∀ m, m < signals.length →
      allSucceedSignal.collect signals.length 0 (List.replicate m none) = none) ∧
    (∀ rest : List GoError,
      allSucceedSignal.collect signals.length 0
        (List.replicate signals.length none ++ rest) = some (none, signals.length)) ∧
    (∀ m, m < signals.length → w.call.received = List.replicate m none →
      (∀ e, w.call.pc ≠ allSucceedPC.returned e) ∧
        allSucceedSignal.step (UntilAllSucceed signals) outcome w
          (WorldAction.act allSucceedAction.returnNil) = none) ∧
    (w.call.pc = allSucceedPC.returned none →
      w.call.received = List.replicate signals.length none) := by
  have hinv := allSucceedSignal.allSucceed_inv_reachable _ outcome w hw
  refine ⟨?_, ?_, ?_, ?_, ?_, ?_, ?_, ?_, ?_⟩
  · intro k F rest hk1 hkn hF
    have := allSucceedSignal.collect_fail signals.length F hF rest (k - 1) 0 (by omega)
    rw [this]
    simp only [Option.some.injEq, Prod.mk.injEq, true_and]
    omega
  · intro ds hall hlen
    exact allSucceedSignal.collect_all_nil _ ds 0 hall (by omega)
  · intro e he
    exact (allSucceedSignal.returned_facts _ outcome w hinv e he).2.2
  · intro k F hk hF hrcv
    obtain ⟨_, _, _, _, _, h6⟩ := hinv
    have hmem : F ∈ w.call.received := by rw [hrcv]; simp
    cases hpc : w.call.pc with
    | spawning rest =>
      rw [hpc] at h6
      rw [h6.2] at hmem
      simp at hmem
    | collecting i =>
      rw [hpc] at h6
      rw [h6.2] at hmem
      exact absurd (List.eq_of_mem_replicate hmem) hF
    | returned e =>
      rw [hpc] at h6
      cases e with
      | none =>
        rw [h6.2.1] at hmem
        exact absurd (List.eq_of_mem_replicate hmem) hF
      | some a =>
        obtain ⟨_, k2, hk2, h6b⟩ := h6
        rw [hrcv] at h6b
        obtain ⟨hl, hr⟩ := List.append_inj' h6b rfl
        simp only [List.cons.injEq, and_true] at hr
        have hlen := congrArg List.length hl
        simp only [List.length_replicate] at hlen
        refine ⟨by rw [hr], ?_⟩
        show k ≤ signals.length
        have hk3 : k2 < signals.length := hk2
        omega
  · intro hrcv
    obtain ⟨completed, obs, pc, rcv⟩ := w
    obtain ⟨_, _, _, _, _, h6⟩ := hinv
    simp only at h6 hrcv
    cases pc with
    | spawning rest =>
      obtain ⟨h6a, h6b⟩ := h6
      have h6a : List.map Observer.signal obs ++ rest = signals := h6a
      have hlen : signals.length = 0 := by
        have := congrArg List.length hrcv
        rw [h6b] at this
        simpa using this.symm
      have hrest : rest = [] := by
        have := congrArg List.length h6a
        rw [hlen] at this
        simp only [List.length_append, List.length_map] at this
        exact List.length_eq_zero.mp (by omega)
      subst hrest
      refine ⟨{ completed := completed
                call := { observers := obs, pc := allSucceedPC.returned none
                          received := rcv } }, ?_, rfl, rfl⟩
      have hn : ¬ 0 < (UntilAllSucceed signals).signals.length := by
        show ¬ 0 < signals.length
        omega
      simp [allSucceedSignal.resume, exec, allSucceedSignal.step, World.step,
        allSucceedCall.step, hn]
    | collecting i =>
      obtain ⟨_, h6b⟩ := h6
      have hi : i = signals.length := by
        have := congrArg List.length hrcv
        rw [h6b] at this
        simpa using this
      have hn : ¬ i < (UntilAllSucceed signals).signals.length := by
        show ¬ i < signals.length
        omega
      refine ⟨{ completed := completed
                call := { observers := obs, pc := allSucceedPC.returned none
                          received := rcv } }, ?_, rfl, rfl⟩
      simp [allSucceedSignal.resume, exec, allSucceedSignal.step, World.step,
        allSucceedCall.step, hn]
    | returned e =>
      cases e with
      | none => exact ⟨_, rfl, rfl, rfl⟩
      | some a =>
        obtain ⟨_, k2, _, h6b⟩ := h6
        have hmem : some a ∈ rcv := by rw [h6b]; simp
        rw [hrcv] at hmem
        exact absurd (List.eq_of_mem_replicate hmem) (by simp)
  · intro m hm
    exact allSucceedSignal.collect_blocked signals.length m 0 (by omega)
  · intro rest
    exact allSucceedSignal.collect_nils_then signals.length rest signals.length 0 (by omega)
  · intro m hm hrcv
    obtain ⟨completed, obs, pc, rcv⟩ := w
    obtain ⟨_, _, _, _, _, h6⟩ := hinv
    simp only at h6 hrcv
    cases pc with
    | spawning rest =>
      refine ⟨fun e he => by simp at he, ?_⟩
      cases rest <;> simp [allSucceedSignal.step, World.step, allSucceedCall.step]
    | collecting i =>
      obtain ⟨_, h6b⟩ := h6
      have hi : i = m := by
        have := congrArg List.length hrcv
        rw [h6b] at this
        simpa using this
      have hlt : i < (UntilAllSucceed signals).signals.length := by
        show i < signals.length
        omega
      refine ⟨fun e he => by simp at he, ?_⟩
      simp [allSucceedSignal.step, World.step, allSucceedCall.step, hlt]
    | returned e =>
      exfalso
      cases e with
      | none =>
        have h6b : rcv = List.replicate signals.length none := h6.2.1
        have := congrArg List.length hrcv
        rw [h6b] at this
        simp only [List.length_replicate] at this
        omega
      | some a =>
        obtain ⟨_, k2, _, h6b⟩ := h6
        have hmem : some a ∈ rcv := by rw [h6b]; simp
        rw [hrcv] at hmem
        exact absurd (List.eq_of_mem_replicate hmem) (by simp)
  · intro hpc
    obtain ⟨_, _, _, _, _, h6⟩ := hinv
    rw [hpc] at h6
    exact h6.2.1

/-- Witness of C5: `UntilAllSucceed(0, 1).Wait()` has returned error 5 after one receive
while signal 0 has not completed. -/
theorem UntilAllSucceed_Wait_fail_fast_witness :
    allSucceedSignal.Reachable (UntilAllSucceed [0, 1]) sampleOutcome allSucceedSignal.sample ∧
    ((∀ k F rest, 1 ≤ k → k ≤ [0, 1].length → F ≠ none →
      allSucceedSignal.collect [0, 1].length 0 (List.replicate (k - 1) none ++ F :: rest) =
        some (F, k)) ∧
    (∀ ds : List GoError, (∀ d ∈ ds, d = none) → ds.length = [0, 1].length →
      allSucceedSignal.collect [0, 1].length 0 ds = some (none, [0, 1].length)) ∧
    (∀ e, allSucceedSignal.sample.call.pc = allSucceedPC.returned e →
      allSucceedSignal.collect [0, 1].length 0 allSucceedSignal.sample.call.received =
        some (e, allSucceedSignal.sample.call.received.length)) ∧
    (∀ k F, 1 ≤ k → F ≠ none →
      allSucceedSignal.sample.call.received = List.replicate (k - 1) none ++ [F] →
      allSucceedSignal.sample.call.pc = allSucceedPC.returned F ∧ k ≤ [0, 1].length) ∧
    (allSucceedSignal.sample.call.received = List.replicate [0, 1].length none →
      ∃ t, exec (allSucceedSignal.step (UntilAllSucceed [0, 1]) sampleOutcome)
          allSucceedSignal.sample
          ((allSucceedSignal.resume allSucceedSignal.sample.call.pc).map WorldAction.act) =
            some t ∧
        t.call.pc = allSucceedPC.returned none ∧
        t.call.received = allSucceedSignal.sample.call.received) ∧
    (∀ m, m < [0, 1].length →
      allSucceedSignal.collect [0, 1].length 0 (List.replicate m none) = none) ∧
    (∀ rest : List GoError,
      allSucceedSignal.collect [0, 1].length 0
        (List.replicate [0, 1].length none ++ rest) = some (none, [0, 1].length)) ∧
    (∀ m, m < [0, 1].length →
      allSucceedSignal.sample.call.received = List.replicate m none →
      (∀ e, allSucceedSignal.sample.call.pc ≠ allSucceedPC.returned e) ∧
        allSucceedSignal.step (UntilAllSucceed [0, 1]) sampleOutcome allSucceedSignal.sample
          (WorldAction.act allSucceedAction.returnNil) = none) ∧
    (allSucceedSignal.sample.call.pc = allSucceedPC.returned none →
      allSucceedSignal.sample.call.received = List.replicate [0, 1].length none)) :=
  ⟨⟨allSucceedSignal.sampleSchedule, by decide⟩,
    UntilAllSucceed_Wait_fail_fast [0, 1] sampleOutcome allSucceedSignal.sample
      ⟨allSucceedSignal.sampleSchedule, by decide⟩⟩

/-! ### `UntilAllSucceed`: two calls on the same signal -/

theorem allSucceedSignal.inv_step2 (f : allSucceedSignal)
    (outcome₁ outcome₂ : SignalRef → GoError)
    (w : World (allSucceedCall × allSucceedCall))
    (a : WorldAction (allSucceedAction ⊕ allSucceedAction))
    (t : World (allSucceedCall × allSucceedCall))
    (hw : allSucceedCall.Inv f outcome₁ w.completed w.call.1 ∧
      allSucceedCall.Inv f outcome₂ w.completed w.call.2)
    (h : allSucceedSignal.step2 f outcome₁ outcome₂ w a = some t) :
    allSucceedCall.Inv f outcome₁ t.completed t.call.1 ∧
      allSucceedCall.Inv f outcome₂ t.completed t.call.2 := by
  cases a with
  | complete x =>
    simp only [allSucceedSignal.step2, World.step, Option.some.injEq] at h
    subst h
    exact ⟨allSucceedCall.inv_mono f outcome₁ _ x _ hw.1,
      allSucceedCall.inv_mono f outcome₂ _ x _ hw.2⟩
  | act b =>
    cases b with
    | inl b =>
      simp only [allSucceedSignal.step2, World.step, pairStep] at h
      cases hb : allSucceedCall.step f outcome₁ w.completed w.call.1 b with
      | none => simp [hb] at h
      | some c =>
        simp only [hb, Option.some.injEq] at h
        subst h
        exact ⟨allSucceedCall.inv_step f outcome₁ _ _ b c hw.1 hb, hw.2⟩
    | inr b =>
      simp only [allSucceedSignal.step2, World.step, pairStep] at h
      cases hb : allSucceedCall.step f outcome₂ w.completed w.call.2 b with
      | none => simp [hb] at h
      | some c =>
        simp only [hb, Option.some.injEq] at h
        subst h
        exact ⟨hw.1, allSucceedCall.inv_step f outcome₂ _ _ b c hw.2 hb⟩

theorem allSucceedSignal.inv_reachable2 (f : allSucceedSignal)
    (outcome₁ outcome₂ : SignalRef → GoError) (w : World (allSucceedCall × allSucceedCall))
    (h : allSucceedSignal.Reachable2 f outcome₁ outcome₂ w) :
    allSucceedCall.Inv f outcome₁ w.completed w.call.1 ∧
      allSucceedCall.Inv f outcome₂ w.completed w.call.2 := by
  obtain ⟨acts, hacts⟩ := h
  exact exec_invariant (allSucceedSignal.step2 f outcome₁ outcome₂)
    (fun u => allSucceedCall.Inv f outcome₁ u.completed u.call.1 ∧
      allSucceedCall.Inv f outcome₂ u.completed u.call.2)
    (fun s a t hs h => allSucceedSignal.inv_step2 f outcome₁ outcome₂ s a t hs h) acts f.Wait2 w
    ⟨allSucceedSignal.allSucceed_inv_init f outcome₁,
      allSucceedSignal.allSucceed_inv_init f outcome₂⟩ hacts

/-- C9, as the claim states it, fails: after `allSucceedSignal.sampleSchedule2` two `Wait`
calls on the same `UntilAllSucceed(1, 2)`, whose inputs fail with errors 5 and 6, have
returned error 5 and error 6.  An input that is itself such a composite therefore returns
different errors to different calls, and after `allSucceedSignal.nestedSchedule` two `Wait`
calls on a composite over that one input have returned error 5 and error 6 as well. -/
theorem UntilAllSucceed_two_Waits_differ :
    exec (allSucceedSignal.step2 (UntilAllSucceed [1, 2]) sampleOutcome sampleOutcome)
        (UntilAllSucceed [1, 2]).Wait2 allSucceedSignal.sampleSchedule2 =
      some allSucceedSignal.sample2 ∧
    allSucceedSignal.sample2.call.1.pc = allSucceedPC.returned (some 5) ∧
    allSucceedSignal.sample2.call.2.pc = allSucceedPC.returned (some 6) ∧
    (some 5 : GoError) ≠ some 6 ∧
    exec (allSucceedSignal.step2 (UntilAllSucceed [1]) sampleOutcome sampleOutcomeLater)
        (UntilAllSucceed [1]).Wait2 allSucceedSignal.nestedSchedule =
      some allSucceedSignal.nested ∧
    allSucceedSignal.nested.call.1.pc = allSucceedPC.returned (some 5) ∧
    allSucceedSignal.nested.call.2.pc = allSucceedPC.returned (some 6) := by
  refine ⟨by decide, rfl, rfl, by decide, by decide, rfl, rfl⟩

/-- C9, amended: take two `Wait` calls on the same `UntilAllSucceed(signals...)` that have
returned, and let every input return the same outcome to the observers of both calls.
Then the two calls agree on success and failure, each failure returned is the outcome of
one of the inputs, and the two calls return the identical outcome whenever all failing
inputs fail with the same reason (in particular when exactly one input fails). -/
theorem UntilAllSucceed_two_Waits_agree (signals : List SignalRef)
    (outcome₁ outcome₂ : SignalRef → GoError) (w : World (allSucceedCall × allSucceedCall))
    (hw : allSucceedSignal.Reachable2 (UntilAllSucceed signals) outcome₁ outcome₂ w)
    (hin : ∀ x ∈ signals, outcome₁ x = outcome₂ x)
    (e₁ e₂ : GoError) (h₁ : w.call.1.pc = allSucceedPC.returned e₁)
    (h₂ : w.call.2.pc = allSucceedPC.returned e₂) :
    (e₁ = none ↔ e₂ = none) ∧
    (e₁ ≠ none → ∃ x ∈ signals, outcome₁ x = e₁) ∧
    (e₂ ≠ none → ∃ x ∈ signals, outcome₂ x = e₂) ∧
    ((∀ x ∈ signals, ∀ y ∈ signals, outcome₁ x ≠ none → outcome₁ y ≠ none →
      outcome₁ x = outcome₁ y) → e₁ = e₂) := by
  obtain ⟨hi1, hi2⟩ := allSucceedSignal.inv_reachable2 _ outcome₁ outcome₂ w hw
  obtain ⟨a1, a2, _⟩ := allSucceedSignal.returned_facts (UntilAllSucceed signals) outcome₁
    { completed := w.completed, call := w.call.1 } hi1 e₁ h₁
  obtain ⟨b1, b2, _⟩ := allSucceedSignal.returned_facts (UntilAllSucceed signals) outcome₂
    { completed := w.completed, call := w.call.2 } hi2 e₂ h₂
  have hiff : e₁ = none ↔ e₂ = none := by
    constructor
    · intro h
      by_contra hne
      obtain ⟨x, hx, _, hxe⟩ := b2 hne
      exact hne (hxe ▸ (hin x hx) ▸ (a1 h x hx).2)
    · intro h
      by_contra hne
      obtain ⟨x, hx, _, hxe⟩ := a2 hne
      exact hne (hxe ▸ (hin x hx).symm ▸ (b1 h x hx).2)
  refine ⟨hiff, ?_, ?_, ?_⟩
  · intro hne
    obtain ⟨x, hx, _, hxe⟩ := a2 hne
    exact ⟨x, hx, hxe⟩
  · intro hne
    obtain ⟨x, hx, _, hxe⟩ := b2 hne
    exact ⟨x, hx, hxe⟩
  · intro hsame
    by_cases h : e₁ = none
    · rw [h, hiff.mp h]
    · have h2 : e₂ ≠ none := fun hn => h (hiff.mpr hn)
      obtain ⟨x, hx, _, hxe⟩ := a2 h
      obtain ⟨y, hy, _, hye⟩ := b2 h2
      have hye1 : outcome₁ y = e₂ := (hin y hy).trans hye
      rw [← hxe, ← hye1]
      exact hsame x hx y hy (hxe ▸ h) (hye1 ▸ h2)

/-- Witness of the amended C9: two `Wait` calls on `UntilAllSucceed(0, 1)`, where input 1 is
the only one that fails and returns error 5 to both calls, have both returned error 5. -/
theorem UntilAllSucceed_two_Waits_agree_witness :
    allSucceedSignal.Reachable2 (UntilAllSucceed [0, 1]) sampleOutcome sampleOutcome
      allSucceedSignal.agree ∧
    (∀ x ∈ [0, 1], sampleOutcome x = sampleOutcome x) ∧
    allSucceedSignal.agree.call.1.pc = allSucceedPC.returned (some 5) ∧
    allSucceedSignal.agree.call.2.pc = allSucceedPC.returned (some 5) ∧
    (∀ x ∈ [0, 1], ∀ y ∈ [0, 1], sampleOutcome x ≠ none → sampleOutcome y ≠ none →
      sampleOutcome x = sampleOutcome y) ∧
    (((some 5 : GoError) = none ↔ (some 5 : GoError) = none) ∧
    ((some 5 : GoError) ≠ none → ∃ x ∈ [0, 1], sampleOutcome x = some 5) ∧
    ((some 5 : GoError) ≠ none → ∃ x ∈ [0, 1], sampleOutcome x = some 5) ∧
    ((∀ x ∈ [0, 1], ∀ y ∈ [0, 1], sampleOutcome x ≠ none → sampleOutcome y ≠ none →
      sampleOutcome x = sampleOutcome y) → (some 5 : GoError) = some 5)) :=
  ⟨⟨allSucceedSignal.agreeSchedule, by decide⟩, fun _ _ => rfl, rfl, rfl, by decide,
    UntilAllSucceed_two_Waits_agree [0, 1] sampleOutcome sampleOutcome allSucceedSignal.agree
      ⟨allSucceedSignal.agreeSchedule, by decide⟩ (fun _ _ => rfl) (some 5) (some 5) rfl rfl⟩

/-! ### `UntilAllSucceed`: observers after an early return -/

theorem getElem?_set_of_ne_elem {α : Type} (l : List α) :
    ∀ (i j : Nat) (x y z : α), l[i]? = some x → l[j]? = some y → x ≠ y →
      (l.set i z)[j]? = some y := by
  induction l with
  | nil => intro i j x y z h; simp at h
  | cons a rest ih =>
    intro i j x y z hi hj hne
    cases i with
    | zero =>
      cases j with
      | zero =>
        simp only [List.getElem?_cons_zero, Option.some.injEq] at hi hj
        exact absurd (hi.symm.trans hj) hne
      | succ j => simpa using hj
    | succ i =>
      cases j with
      | zero => simpa using hj
      | succ j =>
        simp only [List.getElem?_cons_succ] at hi hj
        simpa using ih i j x y z hi hj hne

theorem allSucceedSignal.returned_step (f : allSucceedSignal) (outcome : SignalRef → GoError)
    (e : GoError) (j : Nat) (sg : SignalRef) (err : GoError)
    (w : World allSucceedCall) (a : WorldAction allSucceedAction) (t : World allSucceedCall)
    (hw : w.call.pc = allSucceedPC.returned e ∧
      w.call.observers[j]? = some { signal := sg, pc := ObserverPC.sending err })
    (h : allSucceedSignal.step f outcome w a = some t) :
    t.call.pc = allSucceedPC.returned e ∧
      t.call.observers[j]? = some { signal := sg, pc := ObserverPC.sending err } := by
  obtain ⟨completed, obs, pc, rcv⟩ := w
  obtain ⟨hpc, hj⟩ := hw
  simp only at hpc hj
  subst hpc
  cases a with
  | complete x =>
    simp only [allSucceedSignal.step, World.step, Option.some.injEq] at h
    subst h
    exact ⟨rfl, hj⟩
  | act b =>
    cases b with
    | go => simp [allSucceedSignal.step, World.step, allSucceedCall.step] at h
    | initLoop => simp [allSucceedSignal.step, World.step, allSucceedCall.step] at h
    | returnNil => simp [allSucceedSignal.step, World.step, allSucceedCall.step] at h
    | receive i => simp [allSucceedSignal.step, World.step, allSucceedCall.step] at h
    | observerWaitReturns i =>
      cases hi : obs[i]? with
      | none => simp [allSucceedSignal.step, World.step, allSucceedCall.step, hi] at h
      | some o =>
        obtain ⟨sg2, opc⟩ := o
        cases opc with
        | sending e2 => simp [allSucceedSignal.step, World.step, allSucceedCall.step, hi] at h
        | exited => simp [allSucceedSignal.step, World.step, allSucceedCall.step, hi] at h
        | inWait =>
          by_cases hc : sg2 ∈ completed
          · simp only [allSucceedSignal.step, World.step, allSucceedCall.step, hi, hc, if_true,
              Option.some.injEq] at h
            subst h
            exact ⟨rfl, getElem?_set_of_ne_elem obs i j _ _ _ hi hj (by simp)⟩
          · simp [allSucceedSignal.step, World.step, allSucceedCall.step, hi, hc] at h

theorem allSucceedSignal.blocked_forever (f : allSucceedSignal) (outcome : SignalRef → GoError)
    (e : GoError) (j : Nat) (sg : SignalRef) (err : GoError)
    (acts : List (WorldAction allSucceedAction)) (w t : World allSucceedCall)
    (hw : w.call.pc = allSucceedPC.returned e ∧
      w.call.observers[j]? = some { signal := sg, pc := ObserverPC.sending err })
    (h : exec (allSucceedSignal.step f outcome) w acts = some t) :
    t.call.pc = allSucceedPC.returned e ∧
      t.call.observers[j]? = some { signal := sg, pc := ObserverPC.sending err } :=
  exec_invariant (allSucceedSignal.step f outcome)
    (fun u => u.call.pc = allSucceedPC.returned e ∧
      u.call.observers[j]? = some { signal := sg, pc := ObserverPC.sending err })
    (fun s a t hs h => allSucceedSignal.returned_step f outcome e j sg err s a t hs h)
    acts w t hw h

/-- C10 at the failing input `UntilAllSucceed(0, 1).Wait()`, signal 1 failing with error 5
before signal 0 completes: the call has started one observer per input and has returned
error 5 after one receive; signal 0 then completes and its observer reaches its send on
`errChan`; and after every further schedule that observer is still in that send, so it
never terminates. -/
theorem UntilAllSucceed_Wait_observer_blocked_forever :
    exec (allSucceedSignal.step (UntilAllSucceed [0, 1]) sampleOutcome)
        (UntilAllSucceed [0, 1]).Wait
        (allSucceedSignal.sampleSchedule ++ allSucceedSignal.lateSchedule) =
      some allSucceedSignal.leaked ∧
    allSucceedSignal.leaked.call.observers.map Observer.signal = [0, 1] ∧
    allSucceedSignal.leaked.call.pc = allSucceedPC.returned (some 5) ∧
    allSucceedSignal.leaked.call.received = [some 5] ∧
    0 ∈ allSucceedSignal.leaked.completed ∧
    (∀ acts t, exec (allSucceedSignal.step (UntilAllSucceed [0, 1]) sampleOutcome)
        allSucceedSignal.leaked acts = some t →
      t.call.pc = allSucceedPC.returned (some 5) ∧
        t.call.observers[0]? = some { signal := 0, pc := ObserverPC.sending none }) := by
  refine ⟨by decide, rfl, rfl, rfl, by decide, ?_⟩
  intro acts t h
  exact allSucceedSignal.blocked_forever _ sampleOutcome (some 5) 0 0 none acts
    allSucceedSignal.leaked t ⟨rfl, rfl⟩ h

end Wait
